import Mathlib

/-!
Verification of the watchdag DAG task runner (crates `watchdag` and
`watchdag-cli`) against its natural-language specification.

The development shallowly embeds the orchestration core:

* the per-run scheduler state machine
  (`src/watchdag-cli/src/dag/{scheduler,state_manager,task_info}.rs`,
  `src/watchdag-cli/src/dag/graph.rs` as shared with
  `src/watchdag/src/dag/graph.rs`),
* the trigger queue (`src/watchdag/src/engine/queue.rs`),
* the aggregate content hash (`src/watchdag-cli/src/watch/hash.rs`),
* the duration parser for time-based progress
  (`src/watchdag/src/exec/long_lived.rs`).

Modelling conventions:

* Rust `HashMap<TaskName, TaskInfo>` is modelled as an association list
  `List (TaskName × TaskInfo)`; `HashMap` key uniqueness is carried as a
  `Nodup` hypothesis where a statement needs it.  Iteration order of a
  `HashMap` is unspecified in Rust; the list order is one determinization,
  and all properties proved below are order-insensitive (set statements).
* `u64` counters are modelled as `Nat`; the run counter only ever grows by
  one per run so 64-bit wraparound is unreachable in any practical trace,
  and no claim depends on it.  Where a `u64` multiplication can overflow
  (duration arithmetic) the model reduces modulo `2 ^ 64`, the release-mode
  Rust semantics.
* Fields of `TaskInfo` that no claim mentions (`cmd`, `long_lived`,
  `rerun`, the stdout regex strings, `use_hash`) are carried by neither the
  model's `TaskInfo` nor `ScheduledTask`: they are copied verbatim by the
  source and never read by the scheduler logic under verification.
* The two DFS loops of the state manager are written with an explicit fuel
  argument so that they are structurally recursive and kernel-evaluable;
  the wrappers supply a fuel that is proved sufficient (the characterization
  theorems below are established together with fuel adequacy).
-/

namespace Watchdag

/-- Canonical task name type used throughout the engine (`type TaskName = String`). -/
abbrev TaskName := String

/-- Per-run state of a task (`enum RunState` in `dag/task_info.rs`).
Rust's `Option<RunState>` (`None` = not participating, "Absent") is modelled
as `Option RunState`. -/
inductive RunState
  | Pending
  | Running
  | DoneSuccess
  | DoneFailed
deriving DecidableEq, Repr

/-- Static task information plus per-run state (`struct TaskInfo` in
`dag/task_info.rs`).  Static fields not read by the scheduler logic are
omitted (see the module comment). -/
structure TaskInfo where
  name : TaskName
  deps : List TaskName
  run_state : Option RunState
  last_successful_run : Option Nat
  last_failed_run : Option Nat
deriving DecidableEq, Repr

/-- Outcome of a task process (`enum TaskOutcome` in `engine/mod.rs`). -/
inductive TaskOutcome
  | Success
  | Failed (code : Int)
deriving DecidableEq, Repr

/-- Description of a task the scheduler wants executed now
(`struct ScheduledTask`); only the fields the claims mention are kept. -/
structure ScheduledTask where
  name : TaskName
  run_id : Nat
deriving DecidableEq, Repr

/-- The task map `tasks: HashMap<TaskName, TaskInfo>` as an association list. -/
abbrev Tasks := List (TaskName × TaskInfo)

/-- `tasks.get(name)` on the association-list model: first entry with the key. -/
def getTask (tasks : Tasks) (name : TaskName) : Option TaskInfo :=
  (tasks.find? fun kv => kv.1 = name).map Prod.snd

/-- `tasks.get_mut(name)` followed by a mutation `f`: update every entry
holding the key (on a `Nodup`-keyed list, exactly the entry `get` returns). -/
def setTask (tasks : Tasks) (name : TaskName) (f : TaskInfo → TaskInfo) : Tasks :=
  tasks.map fun kv => if kv.1 = name then (kv.1, f kv.2) else kv

/-- The key list of the task map. -/
def keysOf (tasks : Tasks) : List TaskName :=
  tasks.map Prod.fst

/-- Internal DAG node (`struct DagNode` in `dag/graph.rs`): immediate deps
and immediate dependents. -/
structure DagNode where
  deps : List TaskName
  dependents : List TaskName
deriving DecidableEq, Repr

/-- Adjacency map keyed by task name (`struct DagGraph`). -/
structure DagGraph where
  nodes : List (TaskName × DagNode)
deriving DecidableEq, Repr

/-- `DagGraph::dependencies_of`: immediate dependencies, `[]` for unknown names. -/
def DagGraph.dependencies_of (g : DagGraph) (name : TaskName) : List TaskName :=
  match (g.nodes.find? fun kv => kv.1 = name).map Prod.snd with
  | some n => n.deps
  | none => []

/-- `DagGraph::dependents_of`: immediate dependents, `[]` for unknown names. -/
def DagGraph.dependents_of (g : DagGraph) (name : TaskName) : List TaskName :=
  match (g.nodes.find? fun kv => kv.1 = name).map Prod.snd with
  | some n => n.dependents
  | none => []

/-- Dependency satisfaction for one task
(`ReadOnlyStateManager::deps_satisfied_for_info` in `dag/state_manager.rs`,
shared verbatim by `StateManager::deps_satisfied_for_info` and
`Scheduler::deps_satisfied`): every dep must be `DoneSuccess` in this run,
or absent from the run with a recorded historical success; a dep that is
`DoneFailed`, `Pending`, `Running`, or missing from the map is unsatisfied. -/
def deps_satisfied_for_info (tasks : Tasks) (info : TaskInfo) : Bool :=
  info.deps.all fun dep_name =>
    match getTask tasks dep_name with
    | none => false
    | some dep =>
      match dep.run_state with
      | some RunState.DoneSuccess => true
      | some RunState.DoneFailed => false
      | some RunState.Pending => false
      | some RunState.Running => false
      | none => dep.last_successful_run.isSome

/-- Pending-marking update applied at first visit by
`StateManager::mark_task_and_dependents_pending`: a task not yet in the run
becomes `Pending`; a participating task keeps its state. -/
def markPendingInfo (info : TaskInfo) : TaskInfo :=
  if info.run_state.isNone then { info with run_state := some RunState.Pending } else info

/-- Loop body of `StateManager::mark_task_and_dependents_pending`
(`dag/state_manager.rs`): DFS over `dependents` with an explicit
visited set; every newly visited task that is not yet part of the run is
marked `Pending`, and dependents of every visited in-map task are pushed.
The source pushes the dependents one by one onto a `Vec` stack; here they
are prepended as a block, which only permutes the (irrelevant) visit order.
Returns the visited set together with the updated task map. -/
def markPendingLoop (g : DagGraph) : Nat → List TaskName → List TaskName → Tasks →
    List TaskName × Tasks
  | 0, _, visited, tasks => (visited, tasks)
  | _ + 1, [], visited, tasks => (visited, tasks)
  | fuel + 1, name :: rest, visited, tasks =>
    if name ∈ visited then
      markPendingLoop g fuel rest visited tasks
    else
      match getTask tasks name with
      | some _ =>
        markPendingLoop g fuel (g.dependents_of name ++ rest) (name :: visited)
          (setTask tasks name markPendingInfo)
      | none =>
        markPendingLoop g fuel rest (name :: visited) tasks

/-- Fuel that always suffices for `markPendingLoop` starting from a single
root: one step per initial stack entry plus, for every key, one visiting
step and one step per pushed dependent. -/
def markFuel (g : DagGraph) (tasks : Tasks) : Nat :=
  2 + (tasks.map fun kv => 1 + (g.dependents_of kv.1).length).sum

/-- `StateManager::mark_task_and_dependents_pending`: include a triggered
task and all its downstream dependents in this run. -/
def mark_task_and_dependents_pending (g : DagGraph) (tasks : Tasks) (root : TaskName) : Tasks :=
  (markPendingLoop g (markFuel g tasks) [root] [] tasks).2

/-- Whether a task is currently `Pending` or `Running` (the condition under
which `StateManager::mark_dependents_failed` marks and expands a node). -/
def isPendingOrRunning (tasks : Tasks) (name : TaskName) : Bool :=
  match getTask tasks name with
  | some info =>
    match info.run_state with
    | some RunState.Pending => true
    | some RunState.Running => true
    | _ => false
  | none => false

/-- The `DoneFailed`-marking update of the cascade. -/
def setDoneFailedInfo (info : TaskInfo) : TaskInfo :=
  { info with run_state := some RunState.DoneFailed }

/-- Loop body of `StateManager::mark_dependents_failed`
(`dag/state_manager.rs`): pop a name; if the task is currently `Pending` or
`Running`, mark it `DoneFailed`, record its `name` field, and push its
dependents; otherwise (terminal, absent, or unknown) skip it.  As above the
block prepend only permutes the visit order. -/
def markFailedLoop (g : DagGraph) : Nat → List TaskName → List TaskName → Tasks →
    List TaskName × Tasks
  | 0, _, newly_failed, tasks => (newly_failed, tasks)
  | _ + 1, [], newly_failed, tasks => (newly_failed, tasks)
  | fuel + 1, name :: rest, newly_failed, tasks =>
    match getTask tasks name with
    | some info =>
      match info.run_state with
      | some RunState.Pending =>
        markFailedLoop g fuel (g.dependents_of name ++ rest) (newly_failed ++ [info.name])
          (setTask tasks name setDoneFailedInfo)
      | some RunState.Running =>
        markFailedLoop g fuel (g.dependents_of name ++ rest) (newly_failed ++ [info.name])
          (setTask tasks name setDoneFailedInfo)
      | _ =>
        markFailedLoop g fuel rest newly_failed tasks
    | none =>
      markFailedLoop g fuel rest newly_failed tasks

/-- Fuel that always suffices for `markFailedLoop` started on the dependents
of the failed task. -/
def failFuel (g : DagGraph) (tasks : Tasks) (failed_task : TaskName) : Nat :=
  1 + (g.dependents_of failed_task).length +
    (tasks.map fun kv => 1 + (g.dependents_of kv.1).length).sum

/-- `StateManager::mark_dependents_failed`: mark every triggered dependent
(and transitively triggered dependent) of a failed task `DoneFailed`;
returns the newly failed names (excluding the root) and the updated map. -/
def mark_dependents_failed (g : DagGraph) (tasks : Tasks) (failed_task : TaskName) :
    List TaskName × Tasks :=
  markFailedLoop g (failFuel g tasks failed_task) (g.dependents_of failed_task) [] tasks

/-- Candidate selection of `StateManager::collect_new_ready_tasks`: names of
tasks that are `Pending` with satisfied dependencies, decided on the
unmodified map before any task is marked `Running`.  The source collects
`info.name` (the name field). -/
def readyCandidates (tasks : Tasks) : List TaskName :=
  (tasks.filter fun kv =>
    kv.2.run_state = some RunState.Pending && deps_satisfied_for_info tasks kv.2).map
    fun kv => kv.2.name

/-- The `Running`-marking update of `collect_new_ready_tasks`. -/
def setRunningInfo (info : TaskInfo) : TaskInfo :=
  { info with run_state := some RunState.Running }

/-- Second phase of `StateManager::collect_new_ready_tasks`: mark each
candidate `Running` and emit a `ScheduledTask` carrying
`current_run_id.unwrap_or(0)` (`ScheduledTask::from_task_info` keeps the
updated entry's `name`). -/
def scheduleLoop (current_run_id : Option Nat) (tasks : Tasks) :
    List TaskName → List ScheduledTask × Tasks
  | [] => ([], tasks)
  | name :: rest =>
    match getTask tasks name with
    | some info =>
      let r := scheduleLoop current_run_id (setTask tasks name setRunningInfo) rest
      (⟨info.name, current_run_id.getD 0⟩ :: r.1, r.2)
    | none =>
      scheduleLoop current_run_id tasks rest

/-- `StateManager::collect_new_ready_tasks`: collect the `Pending` tasks
whose dependencies are satisfied, mark them `Running`, and return them. -/
def collect_new_ready_tasks (tasks : Tasks) (current_run_id : Option Nat) :
    List ScheduledTask × Tasks :=
  scheduleLoop current_run_id tasks (readyCandidates tasks)

/-- `StateManager::all_tasks_terminal`: no task is `Pending` or `Running`. -/
def all_tasks_terminal (tasks : Tasks) : Bool :=
  !(tasks.any fun kv =>
    kv.2.run_state = some RunState.Pending || kv.2.run_state = some RunState.Running)

/-- The scheduler (`struct Scheduler` in `dag/scheduler.rs`): immutable DAG
plus mutable per-run state. -/
structure Scheduler where
  graph : DagGraph
  tasks : Tasks
  run_counter : Nat
  current_run_id : Option Nat
deriving DecidableEq, Repr

/-- Structured result of one scheduler step (`struct SchedulerStep`). -/
structure SchedulerStep where
  newly_scheduled : List ScheduledTask
  newly_failed : List TaskName
  run_just_finished : Bool
deriving DecidableEq, Repr

/-- `Scheduler::is_idle`. -/
def Scheduler.is_idle (s : Scheduler) : Bool :=
  s.current_run_id.isNone

/-- The per-run state reset `start_new_run` applies to every task. -/
def clearRunStateInfo (info : TaskInfo) : TaskInfo :=
  { info with run_state := none }

/-- `Scheduler::start_new_run`: next run id, and every per-run state reset
to absent while the historical markers are kept. -/
def Scheduler.start_new_run (s : Scheduler) : Scheduler :=
  { s with
    run_counter := s.run_counter + 1
    current_run_id := some (s.run_counter + 1)
    tasks := s.tasks.map fun kv => (kv.1, clearRunStateInfo kv.2) }

/-- `Scheduler::maybe_finish_run`: when a run is active and every task is
terminal, clear `current_run_id`; returns whether this call finished the run. -/
def Scheduler.maybe_finish_run (s : Scheduler) : Bool × Scheduler :=
  match s.current_run_id with
  | none => (false, s)
  | some _ =>
    if all_tasks_terminal s.tasks then (true, { s with current_run_id := none })
    else (false, s)

/-- First stage of `Scheduler::trigger_step_internal`: implicitly start a
new run when idle. -/
def Scheduler.trigger_pre (s : Scheduler) : Scheduler :=
  if s.current_run_id.isNone then s.start_new_run else s

/-- Second stage of `Scheduler::trigger_step_internal`: for a known task,
mark it and its transitive dependents pending. -/
def Scheduler.trigger_marked (s : Scheduler) (task : TaskName) : Scheduler :=
  let s1 := s.trigger_pre
  if (getTask s1.tasks task).isSome then
    { s1 with tasks := mark_task_and_dependents_pending s1.graph s1.tasks task }
  else s1

/-- `Scheduler::trigger_step_internal` (`dag/scheduler.rs`): implicitly start
a run when idle; for a known task mark it and its dependents pending; then
collect ready tasks and possibly finish the run.  `handle_trigger` returns
the `newly_scheduled` component. -/
def Scheduler.trigger_step_internal (s : Scheduler) (task : TaskName) :
    SchedulerStep × Scheduler :=
  let s2 := s.trigger_marked task
  let col := collect_new_ready_tasks s2.tasks s2.current_run_id
  let s3 := { s2 with tasks := col.2 }
  let fin := s3.maybe_finish_run
  (⟨col.1, [], fin.1⟩, fin.2)

/-- The state update `handle_progress` and successful `handle_completion`
apply to the task: `DoneSuccess` for this run, `last_successful_run` set. -/
def setDoneSuccessInfo (run_id : Nat) (info : TaskInfo) : TaskInfo :=
  { info with run_state := some RunState.DoneSuccess, last_successful_run := some run_id }

/-- The state update failed `handle_completion` applies to the task:
`DoneFailed` for this run, `last_failed_run` set. -/
def setFailedRootInfo (run_id : Nat) (info : TaskInfo) : TaskInfo :=
  { info with run_state := some RunState.DoneFailed, last_failed_run := some run_id }

/-- `Scheduler::progress_step_internal`: with no active run or for an
unknown task, a warning and no change; otherwise the task is marked
`DoneSuccess` with `last_successful_run := current run`, ready tasks are
collected and the run possibly finished.  `handle_progress` returns the
`newly_scheduled` component. -/
def Scheduler.progress_step_internal (s : Scheduler) (task : TaskName) :
    SchedulerStep × Scheduler :=
  match s.current_run_id with
  | none => (⟨[], [], false⟩, s)
  | some run_id =>
    match getTask s.tasks task with
    | none => (⟨[], [], false⟩, s)
    | some _ =>
      let s1 := { s with tasks := setTask s.tasks task (setDoneSuccessInfo run_id) }
      let col := collect_new_ready_tasks s1.tasks s1.current_run_id
      let s2 := { s1 with tasks := col.2 }
      let fin := s2.maybe_finish_run
      (⟨col.1, [], fin.1⟩, fin.2)

/-- `Scheduler::completion_step_internal`: with no active run or for an
unknown task, no change; on `Success` like progress; on `Failed code` the
task is marked `DoneFailed` with `last_failed_run := current run`, it is
recorded first in `newly_failed`, and its pending or running dependents are
cascade-failed (no ready collection on the failure path).  Except on the
no-active-run path the run is possibly finished at the end.
`handle_completion` returns the `newly_scheduled` component. -/
def Scheduler.completion_step_internal (s : Scheduler) (task : TaskName)
    (outcome : TaskOutcome) : SchedulerStep × Scheduler :=
  match s.current_run_id with
  | none => (⟨[], [], false⟩, s)
  | some run_id =>
    match getTask s.tasks task with
    | none =>
      let fin := s.maybe_finish_run
      (⟨[], [], fin.1⟩, fin.2)
    | some info =>
      match outcome with
      | TaskOutcome.Success =>
        let s1 := { s with tasks := setTask s.tasks task (setDoneSuccessInfo run_id) }
        let col := collect_new_ready_tasks s1.tasks s1.current_run_id
        let s2 := { s1 with tasks := col.2 }
        let fin := s2.maybe_finish_run
        (⟨col.1, [], fin.1⟩, fin.2)
      | TaskOutcome.Failed _ =>
        let s1 := { s with tasks := setTask s.tasks task (setFailedRootInfo run_id) }
        let casc := mark_dependents_failed s1.graph s1.tasks task
        let s2 := { s1 with tasks := casc.2 }
        let fin := s2.maybe_finish_run
        (⟨[], info.name :: casc.1, fin.1⟩, fin.2)

/-! ### Basic lemmas about the association-list task map -/

/-- The `HashMap` contract carried as hypotheses where needed: keys are
unique, and every entry's `name` field equals its key (the scheduler
constructs the map that way and never renames). -/
def NamesOk (tasks : Tasks) : Prop :=
  ∀ kv ∈ tasks, (kv : TaskName × TaskInfo).2.name = kv.1

instance (tasks : Tasks) : Decidable (NamesOk tasks) :=
  decidable_of_iff (∀ kv ∈ tasks, (kv : TaskName × TaskInfo).2.name = kv.1) Iff.rfl

theorem getTask_cons (kv : TaskName × TaskInfo) (ts : Tasks) (k : TaskName) :
    getTask (kv :: ts) k = if kv.1 = k then some kv.2 else getTask ts k := by
  by_cases h : kv.1 = k <;> simp [getTask, List.find?_cons, h]

theorem setTask_cons (kv : TaskName × TaskInfo) (ts : Tasks) (n : TaskName)
    (f : TaskInfo → TaskInfo) :
    setTask (kv :: ts) n f =
      (if kv.1 = n then (kv.1, f kv.2) else kv) :: setTask ts n f := rfl

theorem getTask_setTask (ts : Tasks) (n : TaskName) (f : TaskInfo → TaskInfo)
    (k : TaskName) :
    getTask (setTask ts n f) k = if k = n then (getTask ts n).map f else getTask ts k := by
  induction ts with
  | nil => by_cases h : k = n <;> simp [getTask, setTask, h]
  | cons kv ts ih =>
    rw [setTask_cons]
    by_cases h1 : kv.1 = n <;> by_cases h3 : kv.1 = k
    · have h2 : k = n := h3 ▸ h1
      subst h2
      simp [getTask_cons, h1, h3]
    · have h2 : ¬k = n := fun hc => h3 (h1.trans hc.symm)
      simp only [getTask_cons, if_pos h1, if_neg h3, if_neg h2] at ih ⊢
      simpa [h2] using ih
    · have h2 : ¬k = n := fun hc => h1 (h3.trans hc)
      simp [getTask_cons, h1, h3, h2]
    · simp only [getTask_cons, if_neg h1, if_neg h3]
      by_cases h2 : k = n
      · subst h2
        simpa [getTask_cons, h3] using ih
      · simpa [h2] using ih

theorem keysOf_setTask (ts : Tasks) (n : TaskName) (f : TaskInfo → TaskInfo) :
    keysOf (setTask ts n f) = keysOf ts := by
  induction ts with
  | nil => rfl
  | cons kv ts ih =>
    rw [setTask_cons]
    by_cases h : kv.1 = n
    · rw [if_pos h]
      show kv.1 :: keysOf (setTask ts n f) = kv.1 :: keysOf ts
      rw [ih]
    · rw [if_neg h]
      show kv.1 :: keysOf (setTask ts n f) = kv.1 :: keysOf ts
      rw [ih]

theorem getTask_isSome_iff_mem_keys (ts : Tasks) (k : TaskName) :
    (getTask ts k).isSome = true ↔ k ∈ keysOf ts := by
  induction ts with
  | nil => simp [getTask, keysOf]
  | cons kv ts ih =>
    rw [getTask_cons]
    by_cases h : kv.1 = k
    · simp [keysOf, h]
    · rw [if_neg h]
      show (getTask ts k).isSome = true ↔ k ∈ kv.1 :: keysOf ts
      rw [List.mem_cons, ih]
      constructor
      · exact fun hk => Or.inr hk
      · rintro (hk | hk)
        · exact absurd hk.symm h
        · exact hk

theorem getTask_eq_none_iff (ts : Tasks) (k : TaskName) :
    getTask ts k = none ↔ k ∉ keysOf ts := by
  rw [← getTask_isSome_iff_mem_keys]
  cases h : getTask ts k <;> simp

theorem getTask_eq_some_mem {ts : Tasks} {k : TaskName} {v : TaskInfo}
    (h : getTask ts k = some v) : (k, v) ∈ ts := by
  induction ts with
  | nil => simp [getTask] at h
  | cons kv ts ih =>
    rw [getTask_cons] at h
    by_cases hk : kv.1 = k
    · rw [if_pos hk] at h
      have h2 : kv.2 = v := by injection h
      subst hk
      subst h2
      exact List.mem_cons_self _ _
    · rw [if_neg hk] at h
      exact List.mem_cons_of_mem _ (ih h)

theorem mem_getTask_of_nodup {ts : Tasks} (hnd : (keysOf ts).Nodup)
    {k : TaskName} {v : TaskInfo} (h : (k, v) ∈ ts) : getTask ts k = some v := by
  induction ts with
  | nil => simp at h
  | cons kv ts ih =>
    obtain ⟨a, b⟩ := kv
    simp only [keysOf, List.map_cons, List.nodup_cons] at hnd
    rcases List.mem_cons.mp h with h | h
    · rw [Prod.mk.injEq] at h
      obtain ⟨h1, h2⟩ := h
      subst h1; subst h2
      simp [getTask_cons]
    · have hk : ((a, b) : TaskName × TaskInfo).1 ≠ k := by
        intro hc
        have hmem : k ∈ List.map Prod.fst ts := List.mem_map.mpr ⟨(k, v), h, rfl⟩
        rw [show ((a, b) : TaskName × TaskInfo).1 = a from rfl] at hc
        rw [hc] at hnd
        exact hnd.1 hmem
      rw [getTask_cons, if_neg hk]
      exact ih hnd.2 h

theorem getTask_mapVals (ts : Tasks) (f : TaskInfo → TaskInfo) (k : TaskName) :
    getTask (ts.map fun kv => (kv.1, f kv.2)) k = (getTask ts k).map f := by
  induction ts with
  | nil => simp [getTask]
  | cons kv ts ih =>
    rw [List.map_cons]
    by_cases h : kv.1 = k
    · simp [getTask_cons, h]
    · rw [getTask_cons, getTask_cons, if_neg h]
      have h2 : ((kv.1, f kv.2) : TaskName × TaskInfo).1 ≠ k := h
      rw [if_neg h2]
      exact ih

theorem keysOf_mapVals (ts : Tasks) (f : TaskInfo → TaskInfo) :
    keysOf (ts.map fun kv => (kv.1, f kv.2)) = keysOf ts := by
  induction ts with
  | nil => rfl
  | cons kv ts ih =>
    show kv.1 :: keysOf (ts.map fun kv => (kv.1, f kv.2)) = kv.1 :: keysOf ts
    rw [ih]

theorem namesOk_setTask {ts : Tasks} (h : NamesOk ts) {n : TaskName}
    {f : TaskInfo → TaskInfo} (hf : ∀ i, (f i).name = i.name) :
    NamesOk (setTask ts n f) := by
  intro kv hkv
  simp only [setTask, List.mem_map] at hkv
  obtain ⟨kv0, hkv0, heq⟩ := hkv
  by_cases hn : kv0.1 = n
  · rw [if_pos hn] at heq
    subst heq
    show (f kv0.2).name = kv0.1
    rw [hf]
    exact h kv0 hkv0
  · rw [if_neg hn] at heq
    subst heq
    exact h kv0 hkv0

theorem namesOk_getTask {ts : Tasks} (h : NamesOk ts) {k : TaskName} {v : TaskInfo}
    (hv : getTask ts k = some v) : v.name = k :=
  h (k, v) (getTask_eq_some_mem hv)

/-! ### Characterization of the pending-marking DFS -/

/-- One `dependents` edge as the marking DFS walks it: the loop expands only
names present in the task map (the key list `ks`). -/
def stepEdge (g : DagGraph) (ks : List TaskName) (a b : TaskName) : Prop :=
  a ∈ ks ∧ b ∈ g.dependents_of a

/-- Reachability along `dependents` edges: the task itself together with its
transitive dependents. -/
def Reach (g : DagGraph) (ks : List TaskName) : TaskName → TaskName → Prop :=
  Relation.ReflTransGen (stepEdge g ks)

/-- Steps still required by `markPendingLoop` from a mid-loop state: one per
stack entry plus, per unvisited key, one visiting step and one step per
dependent it will push. -/
def pendNeeded (g : DagGraph) (stack visited : List TaskName) (tasks : Tasks) : Nat :=
  stack.length +
    ((tasks.filter fun kv => kv.1 ∉ visited).map
      fun kv => 1 + (g.dependents_of kv.1).length).sum

theorem sum_le_of_filter_imp {α : Type} (f : α → Nat) (p q : α → Bool) (l : List α)
    (h : ∀ a ∈ l, p a = true → q a = true) :
    ((l.filter p).map f).sum ≤ ((l.filter q).map f).sum := by
  induction l with
  | nil => simp
  | cons a l ih =>
    have ih2 := ih fun a ha => h a (List.mem_cons_of_mem _ ha)
    cases hp : p a <;> cases hq : q a <;>
      simp only [List.filter_cons, hp, hq, if_true, if_false, List.map_cons, List.sum_cons]
    · exact ih2
    · exact le_trans ih2 (Nat.le_add_left _ _)
    · exact absurd (h a (List.mem_cons_self _ _) hp) (by simp [hq])
    · exact Nat.add_le_add_left ih2 _

theorem filter_visited_cons_of_not_key (tasks : Tasks) (visited : List TaskName)
    (name : TaskName) (hk : name ∉ keysOf tasks) :
    (tasks.filter fun kv => kv.1 ∉ (name :: visited)) =
      tasks.filter fun kv => kv.1 ∉ visited := by
  apply List.filter_congr
  intro kv hkv
  have hne : kv.1 ≠ name := by
    intro hc
    exact hk (hc ▸ List.mem_map.mpr ⟨kv, hkv, rfl⟩)
  simp [List.mem_cons, hne]

theorem sum_filter_visit_key (g : DagGraph) (tasks : Tasks) (visited : List TaskName)
    (name : TaskName) (hmem : name ∈ keysOf tasks) (hnv : name ∉ visited) :
    ((tasks.filter fun kv => kv.1 ∉ (name :: visited)).map
        fun kv => 1 + (g.dependents_of kv.1).length).sum
      + (1 + (g.dependents_of name).length)
      ≤ ((tasks.filter fun kv => kv.1 ∉ visited).map
          fun kv => 1 + (g.dependents_of kv.1).length).sum := by
  induction tasks with
  | nil => simp [keysOf] at hmem
  | cons kv ts ih =>
    simp only [List.filter_cons, decide_eq_true_eq]
    by_cases hkn : kv.1 = name
    · rw [if_neg (fun hcon => hcon (by rw [hkn]; exact List.mem_cons_self _ _)),
        if_pos (show kv.1 ∉ visited by rw [hkn]; exact hnv)]
      simp only [List.map_cons, List.sum_cons]
      have hmono : ((ts.filter fun kv => kv.1 ∉ (name :: visited)).map
            fun kv => 1 + (g.dependents_of kv.1).length).sum
          ≤ ((ts.filter fun kv => kv.1 ∉ visited).map
              fun kv => 1 + (g.dependents_of kv.1).length).sum := by
        apply sum_le_of_filter_imp
        intro a _ ha
        simp only [decide_eq_true_eq] at ha ⊢
        exact fun hc => ha (List.mem_cons_of_mem _ hc)
      rw [hkn]
      omega
    · have hmem2 : name ∈ keysOf ts := by
        rcases List.mem_cons.mp hmem with h | h
        · exact absurd h.symm hkn
        · exact h
      have ih2 := ih hmem2
      by_cases hv2 : kv.1 ∈ visited
      · rw [if_neg (fun hcon => hcon (List.mem_cons_of_mem _ hv2)),
          if_neg (fun hcon => hcon hv2)]
        exact ih2
      · rw [if_pos (show kv.1 ∉ name :: visited by
            intro hcon
            rcases List.mem_cons.mp hcon with h | h
            · exact hkn h
            · exact hv2 h),
          if_pos hv2]
        simp only [List.map_cons, List.sum_cons]
        omega

theorem keyfun_filter_map_setTask (ts : Tasks) (n : TaskName) (f : TaskInfo → TaskInfo)
    (P : TaskName → Bool) (phi : TaskName → Nat) :
    (((setTask ts n f).filter fun kv => P kv.1).map fun kv => phi kv.1) =
      ((ts.filter fun kv => P kv.1).map fun kv => phi kv.1) := by
  induction ts with
  | nil => rfl
  | cons kv ts ih =>
    rw [setTask_cons]
    by_cases h : kv.1 = n
    · rw [if_pos h]
      simp only [List.filter_cons]
      cases hp : P kv.1 with
      | false =>
        rw [if_neg (by decide : ¬(false = true)), if_neg (by decide : ¬(false = true))]
        exact ih
      | true =>
        rw [if_pos rfl, if_pos rfl]
        simp only [List.map_cons]
        rw [ih]
    · rw [if_neg h]
      simp only [List.filter_cons]
      cases hp : P kv.1 with
      | false =>
        rw [if_neg (by decide : ¬(false = true)), if_neg (by decide : ¬(false = true))]
        exact ih
      | true =>
        rw [if_pos rfl, if_pos rfl]
        simp only [List.map_cons]
        rw [ih]

/-- Full characterization of `markPendingLoop`, proved together with fuel
adequacy.  From a mid-loop state whose visited set already has all its
dependents scheduled (`hinv`), the loop visits exactly the input visited set
together with everything reachable from the stack, and marks every newly
visited task via `markPendingInfo` exactly once. -/
theorem markPendingLoop_spec (g : DagGraph) :
    ∀ (fuel : Nat) (stack visited : List TaskName) (tasks : Tasks),
      pendNeeded g stack visited tasks ≤ fuel →
      (∀ v ∈ visited, ∀ b ∈ g.dependents_of v, v ∈ keysOf tasks →
        b ∈ visited ∨ b ∈ stack) →
      (∀ v ∈ visited, v ∈ (markPendingLoop g fuel stack visited tasks).1) ∧
      (∀ s ∈ stack, s ∈ (markPendingLoop g fuel stack visited tasks).1) ∧
      (∀ v ∈ (markPendingLoop g fuel stack visited tasks).1,
        v ∈ visited ∨ ∃ s ∈ stack, Reach g (keysOf tasks) s v) ∧
      (∀ v ∈ (markPendingLoop g fuel stack visited tasks).1,
        ∀ b ∈ g.dependents_of v, v ∈ keysOf tasks →
          b ∈ (markPendingLoop g fuel stack visited tasks).1) ∧
      (∀ k, getTask (markPendingLoop g fuel stack visited tasks).2 k =
        (getTask tasks k).map fun i =>
          if k ∈ (markPendingLoop g fuel stack visited tasks).1 ∧ k ∉ visited then
            markPendingInfo i
          else i) ∧
      keysOf (markPendingLoop g fuel stack visited tasks).2 = keysOf tasks := by
  intro fuel
  induction fuel with
  | zero =>
    intro stack visited tasks hfuel hinv
    have hstack : stack = [] := by
      unfold pendNeeded at hfuel
      cases stack with
      | nil => rfl
      | cons a l => simp only [List.length_cons] at hfuel; omega
    subst hstack
    refine ⟨fun v hv => hv, by simp, fun v hv => Or.inl hv, ?_, ?_, rfl⟩
    · intro v hv b hb hk
      rcases hinv v hv b hb hk with h | h
      · exact h
      · simp at h
    · intro k
      have hcond : ¬(k ∈ (markPendingLoop g 0 [] visited tasks).1 ∧ k ∉ visited) := by
        rintro ⟨h1, h2⟩
        exact h2 h1
      cases hgt : getTask tasks k with
      | none =>
        rw [show (markPendingLoop g 0 [] visited tasks).2 = tasks from rfl, hgt]
        rfl
      | some i =>
        rw [show (markPendingLoop g 0 [] visited tasks).2 = tasks from rfl, hgt]
        simp only [Option.map_some']
        rw [if_neg hcond]
  | succ fuel ih =>
    intro stack visited tasks hfuel hinv
    match stack with
    | [] =>
      refine ⟨fun v hv => hv, by simp, fun v hv => Or.inl hv, ?_, ?_, rfl⟩
      · intro v hv b hb hk
        rcases hinv v hv b hb hk with h | h
        · exact h
        · simp at h
      · intro k
        have hcond : ¬(k ∈ (markPendingLoop g (fuel + 1) [] visited tasks).1 ∧
            k ∉ visited) := by
          rintro ⟨h1, h2⟩
          exact h2 h1
        cases hgt : getTask tasks k with
        | none =>
          rw [show (markPendingLoop g (fuel + 1) [] visited tasks).2 = tasks from rfl, hgt]
          rfl
        | some i =>
          rw [show (markPendingLoop g (fuel + 1) [] visited tasks).2 = tasks from rfl, hgt]
          simp only [Option.map_some']
          rw [if_neg hcond]
    | name :: rest =>
      by_cases hvis : name ∈ visited
      · -- already visited: skip
        have heq : markPendingLoop g (fuel + 1) (name :: rest) visited tasks =
            markPendingLoop g fuel rest visited tasks := by
          simp [markPendingLoop, hvis]
        have hfuel2 : pendNeeded g rest visited tasks ≤ fuel := by
          unfold pendNeeded at hfuel ⊢
          simp only [List.length_cons] at hfuel
          omega
        have hinv2 : ∀ v ∈ visited, ∀ b ∈ g.dependents_of v, v ∈ keysOf tasks →
            b ∈ visited ∨ b ∈ rest := by
          intro v hv b hb hk
          rcases hinv v hv b hb hk with h | h
          · exact Or.inl h
          · rcases List.mem_cons.mp h with h | h
            · exact Or.inl (h ▸ hvis)
            · exact Or.inr h
        obtain ⟨c1, c2, c3, c4, c5, c6⟩ := ih rest visited tasks hfuel2 hinv2
        rw [heq]
        refine ⟨c1, ?_, ?_, c4, c5, c6⟩
        · intro s hs
          rcases List.mem_cons.mp hs with h | h
          · exact c1 s (h ▸ hvis)
          · exact c2 s h
        · intro v hv
          rcases c3 v hv with h | ⟨s, hs, hr⟩
          · exact Or.inl h
          · exact Or.inr ⟨s, List.mem_cons_of_mem _ hs, hr⟩
      · cases hget : getTask tasks name with
        | some info =>
          -- newly visited, present in the map: mark and expand
          have hkey : name ∈ keysOf tasks :=
            (getTask_isSome_iff_mem_keys tasks name).mp (by rw [hget]; rfl)
          have heq : markPendingLoop g (fuel + 1) (name :: rest) visited tasks =
              markPendingLoop g fuel (g.dependents_of name ++ rest) (name :: visited)
                (setTask tasks name markPendingInfo) := by
            simp [markPendingLoop, hvis, hget]
          have hkeys2 : keysOf (setTask tasks name markPendingInfo) = keysOf tasks :=
            keysOf_setTask tasks name markPendingInfo
          have hfuel2 : pendNeeded g (g.dependents_of name ++ rest) (name :: visited)
              (setTask tasks name markPendingInfo) ≤ fuel := by
            unfold pendNeeded at hfuel ⊢
            have hsum : (((setTask tasks name markPendingInfo).filter
                  fun kv => kv.1 ∉ (name :: visited)).map
                    fun kv => 1 + (g.dependents_of kv.1).length).sum =
                ((tasks.filter fun kv => kv.1 ∉ (name :: visited)).map
                  fun kv => 1 + (g.dependents_of kv.1).length).sum := by
              rw [keyfun_filter_map_setTask tasks name markPendingInfo
                (fun x => decide (x ∉ (name :: visited)))
                (fun x => 1 + (g.dependents_of x).length)]
            have hdrop := sum_filter_visit_key g tasks visited name hkey hvis
            simp only [List.length_cons, List.length_append] at hfuel ⊢
            omega
          have hinv2 : ∀ v ∈ (name :: visited), ∀ b ∈ g.dependents_of v,
              v ∈ keysOf (setTask tasks name markPendingInfo) →
              b ∈ (name :: visited) ∨ b ∈ (g.dependents_of name ++ rest) := by
            intro v hv b hb hk
            rcases List.mem_cons.mp hv with h | h
            · subst h
              exact Or.inr (List.mem_append_left _ hb)
            · rw [hkeys2] at hk
              rcases hinv v h b hb hk with h2 | h2
              · exact Or.inl (List.mem_cons_of_mem _ h2)
              · rcases List.mem_cons.mp h2 with h3 | h3
                · exact Or.inl (h3 ▸ List.mem_cons_self _ _)
                · exact Or.inr (List.mem_append_right _ h3)
          obtain ⟨c1, c2, c3, c4, c5, c6⟩ :=
            ih (g.dependents_of name ++ rest) (name :: visited)
              (setTask tasks name markPendingInfo) hfuel2 hinv2
          rw [hkeys2] at c3 c4 c6
          rw [heq]
          refine ⟨?_, ?_, ?_, c4, ?_, c6⟩
          · intro v hv
            exact c1 v (List.mem_cons_of_mem _ hv)
          · intro s hs
            rcases List.mem_cons.mp hs with h | h
            · exact h ▸ c1 name (List.mem_cons_self _ _)
            · exact c2 s (List.mem_append_right _ h)
          · intro v hv
            rcases c3 v hv with h | ⟨s, hs, hr⟩
            · rcases List.mem_cons.mp h with h2 | h2
              · exact Or.inr ⟨name, List.mem_cons_self _ _, h2 ▸ Relation.ReflTransGen.refl⟩
              · exact Or.inl h2
            · rcases List.mem_append.mp hs with h2 | h2
              · refine Or.inr ⟨name, List.mem_cons_self _ _, ?_⟩
                exact Relation.ReflTransGen.head ⟨hkey, h2⟩ hr
              · exact Or.inr ⟨s, List.mem_cons_of_mem _ h2, hr⟩
          · intro k
            rw [c5 k, getTask_setTask]
            by_cases hkne : k = name
            · subst hkne
              rw [if_pos rfl, hget]
              simp only [Option.map_some']
              have hc1 : ¬(k ∈ (markPendingLoop g fuel (g.dependents_of k ++ rest)
                  (k :: visited) (setTask tasks k markPendingInfo)).1 ∧
                  k ∉ (k :: visited)) := by
                rintro ⟨_, h2⟩
                exact h2 (List.mem_cons_self _ _)
              rw [if_neg hc1]
              have hc2 : k ∈ (markPendingLoop g fuel (g.dependents_of k ++ rest)
                  (k :: visited) (setTask tasks k markPendingInfo)).1 ∧ k ∉ visited :=
                ⟨c1 k (List.mem_cons_self _ _), hvis⟩
              rw [if_pos hc2]
            · rw [if_neg hkne]
              cases hgt : getTask tasks k with
              | none => rfl
              | some i =>
                simp only [Option.map_some']
                have hmem : (k ∈ name :: visited) ↔ k ∈ visited := by
                  simp [List.mem_cons, hkne]
                simp only [hmem]
        | none =>
          -- newly visited but not in the map: skip, remember as visited
          have hkey : name ∉ keysOf tasks := (getTask_eq_none_iff tasks name).mp hget
          have heq : markPendingLoop g (fuel + 1) (name :: rest) visited tasks =
              markPendingLoop g fuel rest (name :: visited) tasks := by
            simp [markPendingLoop, hvis, hget]
          have hfuel2 : pendNeeded g rest (name :: visited) tasks ≤ fuel := by
            unfold pendNeeded at hfuel ⊢
            rw [filter_visited_cons_of_not_key tasks visited name hkey]
            simp only [List.length_cons] at hfuel
            omega
          have hinv2 : ∀ v ∈ (name :: visited), ∀ b ∈ g.dependents_of v,
              v ∈ keysOf tasks → b ∈ (name :: visited) ∨ b ∈ rest := by
            intro v hv b hb hk
            rcases List.mem_cons.mp hv with h | h
            · exact absurd (h ▸ hk) hkey
            · rcases hinv v h b hb hk with h2 | h2
              · exact Or.inl (List.mem_cons_of_mem _ h2)
              · rcases List.mem_cons.mp h2 with h3 | h3
                · exact Or.inl (h3 ▸ List.mem_cons_self _ _)
                · exact Or.inr h3
          obtain ⟨c1, c2, c3, c4, c5, c6⟩ := ih rest (name :: visited) tasks hfuel2 hinv2
          rw [heq]
          refine ⟨?_, ?_, ?_, c4, ?_, c6⟩
          · intro v hv
            exact c1 v (List.mem_cons_of_mem _ hv)
          · intro s hs
            rcases List.mem_cons.mp hs with h | h
            · exact h ▸ c1 name (List.mem_cons_self _ _)
            · exact c2 s h
          · intro v hv
            rcases c3 v hv with h | ⟨s, hs, hr⟩
            · rcases List.mem_cons.mp h with h2 | h2
              · exact Or.inr ⟨name, List.mem_cons_self _ _, h2 ▸ Relation.ReflTransGen.refl⟩
              · exact Or.inl h2
            · exact Or.inr ⟨s, List.mem_cons_of_mem _ hs, hr⟩
          · intro k
            rw [c5 k]
            by_cases hkne : k = name
            · subst hkne
              rw [hget]
              rfl
            · cases hgt : getTask tasks k with
              | none => rfl
              | some i =>
                simp only [Option.map_some']
                have hmem : (k ∈ name :: visited) ↔ k ∈ visited := by
                  simp [List.mem_cons, hkne]
                simp only [hmem]

/-- Characterization of `mark_task_and_dependents_pending`: a task's entry is
passed through `markPendingInfo` exactly when the task is the triggered root
or one of its transitive dependents; every other entry is untouched. -/
theorem mark_pending_char (g : DagGraph) (tasks : Tasks) (root : TaskName) :
    (∀ k, (Reach g (keysOf tasks) root k →
        getTask (mark_task_and_dependents_pending g tasks root) k =
          (getTask tasks k).map markPendingInfo) ∧
      (¬Reach g (keysOf tasks) root k →
        getTask (mark_task_and_dependents_pending g tasks root) k = getTask tasks k)) ∧
    keysOf (mark_task_and_dependents_pending g tasks root) = keysOf tasks := by
  have hfilter : (tasks.filter fun kv => kv.1 ∉ ([] : List TaskName)) = tasks := by
    apply List.filter_eq_self.mpr
    intro a _
    simp
  have hfuel : pendNeeded g [root] [] tasks ≤ markFuel g tasks := by
    unfold pendNeeded markFuel
    rw [hfilter]
    simp
  have hinv : ∀ v ∈ ([] : List TaskName), ∀ b ∈ g.dependents_of v,
      v ∈ keysOf tasks → b ∈ ([] : List TaskName) ∨ b ∈ [root] := by
    intro v hv
    simp at hv
  obtain ⟨c1, c2, c3, c4, c5, c6⟩ :=
    markPendingLoop_spec g (markFuel g tasks) [root] [] tasks hfuel hinv
  have hiff : ∀ k, k ∈ (markPendingLoop g (markFuel g tasks) [root] [] tasks).1 ↔
      Reach g (keysOf tasks) root k := by
    intro k
    constructor
    · intro hk
      rcases c3 k hk with h | ⟨s, hs, hr⟩
      · simp at h
      · rcases List.mem_cons.mp hs with h | h
        · exact h ▸ hr
        · simp at h
    · intro hr
      induction hr with
      | refl => exact c2 root (List.mem_cons_self _ _)
      | tail hab hbc ihv => exact c4 _ ihv _ hbc.2 hbc.1
  constructor
  · intro k
    constructor
    · intro hreach
      unfold mark_task_and_dependents_pending
      rw [c5 k]
      cases getTask tasks k with
      | none => rfl
      | some i =>
        simp only [Option.map_some']
        rw [if_pos ⟨(hiff k).mpr hreach, by simp⟩]
    · intro hreach
      unfold mark_task_and_dependents_pending
      rw [c5 k]
      cases getTask tasks k with
      | none => rfl
      | some i =>
        simp only [Option.map_some']
        rw [if_neg (fun hc => hreach ((hiff k).mp hc.1))]
  · exact c6

/-! ### Characterization of ready-task collection -/

theorem scheduleLoop_spec (rid : Option Nat) :
    ∀ (cands : List TaskName) (tasks : Tasks),
      (∀ c ∈ cands, c ∈ keysOf tasks) → NamesOk tasks →
      (scheduleLoop rid tasks cands).1 = cands.map (fun c => ⟨c, rid.getD 0⟩) ∧
      (∀ k, getTask (scheduleLoop rid tasks cands).2 k =
        if k ∈ cands then (getTask tasks k).map setRunningInfo else getTask tasks k) ∧
      keysOf (scheduleLoop rid tasks cands).2 = keysOf tasks ∧
      NamesOk (scheduleLoop rid tasks cands).2 := by
  intro cands
  induction cands with
  | nil =>
    intro tasks _ hnames
    refine ⟨rfl, ?_, rfl, hnames⟩
    intro k
    rw [if_neg (by simp)]
    rfl
  | cons c cs ih =>
    intro tasks hall hnames
    obtain ⟨info, hinfo⟩ : ∃ info, getTask tasks c = some info := by
      have := (getTask_isSome_iff_mem_keys tasks c).mpr (hall c (List.mem_cons_self _ _))
      cases h : getTask tasks c with
      | none => rw [h] at this; simp at this
      | some i => exact ⟨i, rfl⟩
    have hname : info.name = c := namesOk_getTask hnames hinfo
    have heq : scheduleLoop rid tasks (c :: cs) =
        ((⟨info.name, rid.getD 0⟩ : ScheduledTask) ::
            (scheduleLoop rid (setTask tasks c setRunningInfo) cs).1,
          (scheduleLoop rid (setTask tasks c setRunningInfo) cs).2) := by
      simp [scheduleLoop, hinfo]
    have hall2 : ∀ a ∈ cs, a ∈ keysOf (setTask tasks c setRunningInfo) := by
      intro a ha
      rw [keysOf_setTask]
      exact hall a (List.mem_cons_of_mem _ ha)
    have hnames2 : NamesOk (setTask tasks c setRunningInfo) :=
      namesOk_setTask hnames fun i => rfl
    obtain ⟨d1, d2, d3, d4⟩ := ih (setTask tasks c setRunningInfo) hall2 hnames2
    rw [heq]
    refine ⟨?_, ?_, ?_, d4⟩
    · show (⟨info.name, rid.getD 0⟩ : ScheduledTask) ::
        (scheduleLoop rid (setTask tasks c setRunningInfo) cs).1 = _
      rw [d1, hname, List.map_cons]
    · intro k
      show getTask (scheduleLoop rid (setTask tasks c setRunningInfo) cs).2 k = _
      have hd2 := d2 k
      rw [getTask_setTask] at hd2
      by_cases hkc : k = c
      · subst hkc
        rw [if_pos rfl] at hd2
        rw [hd2, if_pos (List.mem_cons_self _ _)]
        by_cases hkcs : k ∈ cs
        · rw [if_pos hkcs, hinfo]
          rfl
        · rw [if_neg hkcs]
      · rw [if_neg hkc] at hd2
        rw [hd2]
        by_cases hkcs : k ∈ cs
        · rw [if_pos hkcs, if_pos (List.mem_cons_of_mem _ hkcs)]
        · rw [if_neg hkcs,
            if_neg (fun hc => hkcs (by
              rcases List.mem_cons.mp hc with h | h
              · exact absurd h hkc
              · exact h))]
    · show keysOf (scheduleLoop rid (setTask tasks c setRunningInfo) cs).2 = _
      rw [d3, keysOf_setTask]

/-- Membership in the candidate list of `collect_new_ready_tasks`: exactly
the tasks whose state is `Pending` with satisfied dependencies. -/
theorem readyCandidates_mem (tasks : Tasks) (hnd : (keysOf tasks).Nodup)
    (hnames : NamesOk tasks) (k : TaskName) :
    k ∈ readyCandidates tasks ↔
      ∃ info, getTask tasks k = some info ∧ info.run_state = some RunState.Pending ∧
        deps_satisfied_for_info tasks info = true := by
  unfold readyCandidates
  rw [List.mem_map]
  constructor
  · rintro ⟨kv, hkv, hname⟩
    rw [List.mem_filter] at hkv
    obtain ⟨hmem, hpred⟩ := hkv
    have hkey : kv.2.name = kv.1 := hnames kv hmem
    rw [hkey] at hname
    subst hname
    refine ⟨kv.2, mem_getTask_of_nodup hnd (by exact hmem), ?_, ?_⟩
    · have := of_decide_eq_true (Bool.and_elim_left hpred)
      exact this
    · exact Bool.and_elim_right hpred
  · rintro ⟨info, hinfo, hpend, hsat⟩
    refine ⟨(k, info), ?_, ?_⟩
    · rw [List.mem_filter]
      refine ⟨getTask_eq_some_mem hinfo, ?_⟩
      show (decide (info.run_state = some RunState.Pending) &&
        deps_satisfied_for_info tasks info) = true
      rw [decide_eq_true hpend, hsat]
      rfl
    · exact namesOk_getTask hnames hinfo

/-- Every ready candidate is a key of the map. -/
theorem readyCandidates_subset_keys (tasks : Tasks) (hnames : NamesOk tasks) :
    ∀ c ∈ readyCandidates tasks, c ∈ keysOf tasks := by
  intro c hc
  unfold readyCandidates at hc
  rw [List.mem_map] at hc
  obtain ⟨kv, hkv, hname⟩ := hc
  rw [List.mem_filter] at hkv
  have hkey : kv.2.name = kv.1 := hnames kv hkv.1
  rw [hkey] at hname
  subst hname
  exact List.mem_map.mpr ⟨kv, hkv.1, rfl⟩

/-- Characterization of `collect_new_ready_tasks`: the returned tasks are
exactly the ready candidates (stamped with the current run id), those tasks
are transitioned to `Running`, and nothing else changes. -/
theorem collect_new_ready_tasks_spec (tasks : Tasks) (rid : Option Nat)
    (hnames : NamesOk tasks) :
    (collect_new_ready_tasks tasks rid).1 =
      (readyCandidates tasks).map (fun c => ⟨c, rid.getD 0⟩) ∧
    (∀ k, getTask (collect_new_ready_tasks tasks rid).2 k =
      if k ∈ readyCandidates tasks then (getTask tasks k).map setRunningInfo
      else getTask tasks k) ∧
    keysOf (collect_new_ready_tasks tasks rid).2 = keysOf tasks ∧
    NamesOk (collect_new_ready_tasks tasks rid).2 :=
  scheduleLoop_spec rid (readyCandidates tasks) tasks
    (readyCandidates_subset_keys tasks hnames) hnames

/-! ### Characterization of the failure cascade -/

/-- Reachability through pending-or-running nodes: chains (of dependents
edges) in which every node, the source and target included, is `Pending` or
`Running` in the given map.  This is exactly the set of nodes the cascade of
`mark_dependents_failed` reaches from the failed task's direct dependents. -/
inductive PRReach (g : DagGraph) (tasks : Tasks) : TaskName → TaskName → Prop
  | refl (a : TaskName) (h : isPendingOrRunning tasks a = true) : PRReach g tasks a a
  | tail {a b c : TaskName} (hab : PRReach g tasks a b) (hbc : c ∈ g.dependents_of b)
      (hc : isPendingOrRunning tasks c = true) : PRReach g tasks a c

theorem PRReach.src {g : DagGraph} {tasks : Tasks} {a b : TaskName}
    (h : PRReach g tasks a b) : isPendingOrRunning tasks a = true := by
  induction h with
  | refl ha => exact ha
  | tail hab hbc hc ih => exact ih

theorem PRReach.dest {g : DagGraph} {tasks : Tasks} {a b : TaskName}
    (h : PRReach g tasks a b) : isPendingOrRunning tasks b = true := by
  cases h with
  | refl ha => exact ha
  | tail hab hbc hc => exact hc

theorem PRReach.trans {g : DagGraph} {tasks : Tasks} {a b c : TaskName}
    (hab : PRReach g tasks a b) (hbc : PRReach g tasks b c) : PRReach g tasks a c := by
  induction hbc with
  | refl hb => exact hab
  | tail hxy hyz hz ih => exact PRReach.tail ih hyz hz

theorem isPendingOrRunning_setDoneFailed (tasks : Tasks) (n x : TaskName) :
    isPendingOrRunning (setTask tasks n setDoneFailedInfo) x =
      if x = n then false else isPendingOrRunning tasks x := by
  unfold isPendingOrRunning
  rw [getTask_setTask]
  by_cases hx : x = n
  · rw [if_pos hx, if_pos hx]
    cases getTask tasks n with
    | none => rfl
    | some i => rfl
  · rw [if_neg hx, if_neg hx]

theorem isPR_setDF_elim {tasks : Tasks} {n x : TaskName}
    (h : isPendingOrRunning (setTask tasks n setDoneFailedInfo) x = true) :
    x ≠ n ∧ isPendingOrRunning tasks x = true := by
  rw [isPendingOrRunning_setDoneFailed] at h
  by_cases hx : x = n
  · rw [if_pos hx] at h
    exact absurd h (by simp)
  · rw [if_neg hx] at h
    exact ⟨hx, h⟩

theorem PRReach.of_setDoneFailed {g : DagGraph} {tasks : Tasks} {n a b : TaskName}
    (h : PRReach g (setTask tasks n setDoneFailedInfo) a b) : PRReach g tasks a b := by
  induction h with
  | refl ha => exact PRReach.refl _ (isPR_setDF_elim ha).2
  | tail hab hbc hc ih => exact PRReach.tail ih hbc (isPR_setDF_elim hc).2

theorem PRReach.ne_of_setDoneFailed {g : DagGraph} {tasks : Tasks} {n a b : TaskName}
    (h : PRReach g (setTask tasks n setDoneFailedInfo) a b) : b ≠ n :=
  (isPR_setDF_elim h.dest).1

/-- The entry-level pending-or-running test used for the cascade's fuel
accounting. -/
def prEntry (kv : TaskName × TaskInfo) : Bool :=
  kv.2.run_state = some RunState.Pending || kv.2.run_state = some RunState.Running

/-- Steps still required by `markFailedLoop` from a mid-loop state. -/
def failNeeded (g : DagGraph) (stack : List TaskName) (tasks : Tasks) : Nat :=
  stack.length +
    ((tasks.filter prEntry).map fun kv => 1 + (g.dependents_of kv.1).length).sum

theorem prEntry_setDoneFailed (kv : TaskName × TaskInfo) :
    prEntry (kv.1, setDoneFailedInfo kv.2) = false := rfl

theorem sum_filter_pr_setDoneFailed_le (g : DagGraph) (tasks : Tasks) (n : TaskName) :
    (((setTask tasks n setDoneFailedInfo).filter prEntry).map
      fun kv => 1 + (g.dependents_of kv.1).length).sum ≤
    ((tasks.filter prEntry).map fun kv => 1 + (g.dependents_of kv.1).length).sum := by
  induction tasks with
  | nil => simp [setTask]
  | cons kv ts ih =>
    rw [setTask_cons]
    by_cases h : kv.1 = n
    · rw [if_pos h]
      rw [List.filter_cons, List.filter_cons]
      rw [prEntry_setDoneFailed kv]
      rw [if_neg (by decide : ¬(false = true))]
      cases hq : prEntry kv with
      | false =>
        rw [if_neg (by decide : ¬(false = true))]
        exact ih
      | true =>
        rw [if_pos rfl]
        simp only [List.map_cons, List.sum_cons]
        omega
    · rw [if_neg h]
      rw [List.filter_cons, List.filter_cons]
      cases hq : prEntry kv with
      | false =>
        rw [if_neg (by decide : ¬(false = true)), if_neg (by decide : ¬(false = true))]
        exact ih
      | true =>
        rw [if_pos rfl, if_pos rfl]
        simp only [List.map_cons, List.sum_cons]
        omega

theorem sum_filter_mark_failed (g : DagGraph) :
    ∀ (tasks : Tasks) (name : TaskName),
      isPendingOrRunning tasks name = true →
      (((setTask tasks name setDoneFailedInfo).filter prEntry).map
        fun kv => 1 + (g.dependents_of kv.1).length).sum
        + (1 + (g.dependents_of name).length)
        ≤ ((tasks.filter prEntry).map fun kv => 1 + (g.dependents_of kv.1).length).sum := by
  intro tasks
  induction tasks with
  | nil =>
    intro name hpr
    unfold isPendingOrRunning getTask at hpr
    simp at hpr
  | cons kv ts ih =>
    intro name hpr
    rw [setTask_cons]
    by_cases h : kv.1 = name
    · -- the popped entry is the first with this key, and it is pending or running
      have hkv : prEntry kv = true := by
        have hpr2 : (match kv.2.run_state with
            | some RunState.Pending => true
            | some RunState.Running => true
            | _ => false) = true := by
          unfold isPendingOrRunning at hpr
          rw [getTask_cons, if_pos h] at hpr
          exact hpr
        unfold prEntry
        cases hrs : kv.2.run_state with
        | none => rw [hrs] at hpr2; simp at hpr2
        | some st =>
          cases st with
          | Pending => rfl
          | Running => rfl
          | DoneSuccess => rw [hrs] at hpr2; simp at hpr2
          | DoneFailed => rw [hrs] at hpr2; simp at hpr2
      rw [if_pos h]
      rw [List.filter_cons, List.filter_cons]
      rw [prEntry_setDoneFailed kv]
      rw [if_neg (by decide : ¬(false = true))]
      rw [hkv, if_pos rfl]
      simp only [List.map_cons, List.sum_cons]
      have hmono := sum_filter_pr_setDoneFailed_le g ts name
      rw [h]
      omega
    · have hpr2 : isPendingOrRunning ts name = true := by
        unfold isPendingOrRunning at hpr ⊢
        rw [getTask_cons, if_neg h] at hpr
        exact hpr
      have ih2 := ih name hpr2
      rw [if_neg h]
      rw [List.filter_cons, List.filter_cons]
      cases hq : prEntry kv with
      | false =>
        rw [if_neg (by decide : ¬(false = true)), if_neg (by decide : ¬(false = true))]
        exact ih2
      | true =>
        rw [if_pos rfl, if_pos rfl]
        simp only [List.map_cons, List.sum_cons]
        omega

theorem PRReach_unfold_fwd (g : DagGraph) (tasks : Tasks) (name : TaskName)
    (rest : List TaskName)
    {s x : TaskName} (hs : s ∈ name :: rest) (h : PRReach g tasks s x) :
    x = name ∨ ∃ s2 ∈ g.dependents_of name ++ rest,
      PRReach g (setTask tasks name setDoneFailedInfo) s2 x := by
  induction h with
  | refl hx =>
    by_cases hsn : s = name
    · exact Or.inl hsn
    · right
      refine ⟨s, ?_, ?_⟩
      · rcases List.mem_cons.mp hs with h2 | h2
        · exact absurd h2 hsn
        · exact List.mem_append_right _ h2
      · refine PRReach.refl s ?_
        rw [isPendingOrRunning_setDoneFailed, if_neg hsn]
        exact hx
  | tail hab hbc hc ih =>
    rename_i b c
    by_cases hcn : c = name
    · exact Or.inl hcn
    · have hc2 : isPendingOrRunning (setTask tasks name setDoneFailedInfo) c = true := by
        rw [isPendingOrRunning_setDoneFailed, if_neg hcn]
        exact hc
      rcases ih with h2 | ⟨s2, hs2, hr2⟩
      · right
        refine ⟨c, List.mem_append_left _ (h2 ▸ hbc), PRReach.refl c hc2⟩
      · right
        exact ⟨s2, hs2, PRReach.tail hr2 hbc hc2⟩

theorem PRReach_unfold_bwd (g : DagGraph) (tasks : Tasks) (name : TaskName)
    (rest : List TaskName) (hPR : isPendingOrRunning tasks name = true) {x : TaskName}
    (h : x = name ∨ ∃ s2 ∈ g.dependents_of name ++ rest,
      PRReach g (setTask tasks name setDoneFailedInfo) s2 x) :
    ∃ s ∈ name :: rest, PRReach g tasks s x := by
  rcases h with h | ⟨s2, hs2, hr⟩
  · refine ⟨name, List.mem_cons_self _ _, ?_⟩
    rw [h]
    exact PRReach.refl name hPR
  · have hr2 : PRReach g tasks s2 x := hr.of_setDoneFailed
    rcases List.mem_append.mp hs2 with h2 | h2
    · refine ⟨name, List.mem_cons_self _ _, ?_⟩
      exact PRReach.trans (PRReach.tail (PRReach.refl name hPR) h2 hr2.src) hr2
    · exact ⟨s2, List.mem_cons_of_mem _ h2, hr2⟩

theorem PRReach_skip (g : DagGraph) (tasks : Tasks) (name : TaskName)
    (rest : List TaskName) (hPR : isPendingOrRunning tasks name = false) (x : TaskName) :
    (∃ s ∈ name :: rest, PRReach g tasks s x) ↔ ∃ s ∈ rest, PRReach g tasks s x := by
  constructor
  · rintro ⟨s, hs, hr⟩
    rcases List.mem_cons.mp hs with h | h
    · have := hr.src
      rw [h, hPR] at this
      exact absurd this (by simp)
    · exact ⟨s, h, hr⟩
  · rintro ⟨s, hs, hr⟩
    exact ⟨s, List.mem_cons_of_mem _ hs, hr⟩

/-- Full characterization of `markFailedLoop`, proved together with fuel
adequacy: from a mid-loop state, the loop marks `DoneFailed` (and records)
exactly the tasks reachable from the stack through chains of
pending-or-running nodes, and touches nothing else. -/
theorem markFailedLoop_spec (g : DagGraph) :
    ∀ (fuel : Nat) (stack acc : List TaskName) (tasks : Tasks),
      failNeeded g stack tasks ≤ fuel → NamesOk tasks →
      (∀ x, x ∈ (markFailedLoop g fuel stack acc tasks).1 ↔
        x ∈ acc ∨ ∃ s ∈ stack, PRReach g tasks s x) ∧
      (∀ k, ((∃ s ∈ stack, PRReach g tasks s k) →
          getTask (markFailedLoop g fuel stack acc tasks).2 k =
            (getTask tasks k).map setDoneFailedInfo) ∧
        ((¬∃ s ∈ stack, PRReach g tasks s k) →
          getTask (markFailedLoop g fuel stack acc tasks).2 k = getTask tasks k)) ∧
      keysOf (markFailedLoop g fuel stack acc tasks).2 = keysOf tasks ∧
      NamesOk (markFailedLoop g fuel stack acc tasks).2 := by
  intro fuel
  induction fuel with
  | zero =>
    intro stack acc tasks hfuel hnames
    have hstack : stack = [] := by
      unfold failNeeded at hfuel
      cases stack with
      | nil => rfl
      | cons a l => simp only [List.length_cons] at hfuel; omega
    subst hstack
    refine ⟨?_, ?_, rfl, hnames⟩
    · intro x
      constructor
      · exact fun hx => Or.inl hx
      · rintro (hx | ⟨s, hs, _⟩)
        · exact hx
        · simp at hs
    · intro k
      refine ⟨?_, fun _ => rfl⟩
      rintro ⟨s, hs, _⟩
      simp at hs
  | succ fuel ih =>
    intro stack acc tasks hfuel hnames
    match stack with
    | [] =>
      refine ⟨?_, ?_, rfl, hnames⟩
      · intro x
        constructor
        · exact fun hx => Or.inl hx
        · rintro (hx | ⟨s, hs, _⟩)
          · exact hx
          · simp at hs
      · intro k
        refine ⟨?_, fun _ => rfl⟩
        rintro ⟨s, hs, _⟩
        simp at hs
    | name :: rest =>
      by_cases hPR : isPendingOrRunning tasks name = true
      · -- the popped task is pending or running: mark, record, expand
        obtain ⟨info, hget, hrs⟩ : ∃ info, getTask tasks name = some info ∧
            (info.run_state = some RunState.Pending ∨
              info.run_state = some RunState.Running) := by
          unfold isPendingOrRunning at hPR
          cases hg : getTask tasks name with
          | none => rw [hg] at hPR; simp at hPR
          | some i =>
            simp only [hg] at hPR
            refine ⟨i, rfl, ?_⟩
            cases hr2 : i.run_state with
            | none => rw [hr2] at hPR; simp at hPR
            | some st =>
              cases st with
              | Pending => exact Or.inl rfl
              | Running => exact Or.inr rfl
              | DoneSuccess => rw [hr2] at hPR; simp at hPR
              | DoneFailed => rw [hr2] at hPR; simp at hPR
        have hname : info.name = name := namesOk_getTask hnames hget
        have heq : markFailedLoop g (fuel + 1) (name :: rest) acc tasks =
            markFailedLoop g fuel (g.dependents_of name ++ rest) (acc ++ [info.name])
              (setTask tasks name setDoneFailedInfo) := by
          rcases hrs with h | h
          · simp [markFailedLoop, hget, h]
          · simp [markFailedLoop, hget, h]
        rw [hname] at heq
        have hnames2 : NamesOk (setTask tasks name setDoneFailedInfo) :=
          namesOk_setTask hnames fun i => rfl
        have hfuel2 : failNeeded g (g.dependents_of name ++ rest)
            (setTask tasks name setDoneFailedInfo) ≤ fuel := by
          unfold failNeeded at hfuel ⊢
          have hdrop := sum_filter_mark_failed g tasks name hPR
          simp only [List.length_cons, List.length_append] at hfuel ⊢
          omega
        obtain ⟨c1, c2, c3, c4⟩ := ih (g.dependents_of name ++ rest) (acc ++ [name])
          (setTask tasks name setDoneFailedInfo) hfuel2 hnames2
        rw [heq]
        refine ⟨?_, ?_, by rw [c3, keysOf_setTask], c4⟩
        · intro x
          rw [c1 x]
          constructor
          · rintro (hx | hx)
            · rcases List.mem_append.mp hx with h | h
              · exact Or.inl h
              · have hxn : x = name := by simpa using h
                exact Or.inr (PRReach_unfold_bwd g tasks name rest hPR (Or.inl hxn))
            · exact Or.inr (PRReach_unfold_bwd g tasks name rest hPR (Or.inr hx))
          · rintro (hx | ⟨s, hs, hr⟩)
            · exact Or.inl (List.mem_append_left _ hx)
            · rcases PRReach_unfold_fwd g tasks name rest hs hr with h | h
              · exact Or.inl (List.mem_append_right _ (by simp [h]))
              · exact Or.inr h
        · intro k
          constructor
          · rintro ⟨s, hs, hr⟩
            rcases PRReach_unfold_fwd g tasks name rest hs hr with h | h
            · have hnot : ¬∃ s2 ∈ g.dependents_of name ++ rest,
                  PRReach g (setTask tasks name setDoneFailedInfo) s2 k := by
                rintro ⟨s2, hs2, hr2⟩
                exact hr2.ne_of_setDoneFailed h
              rw [(c2 k).2 hnot, getTask_setTask, if_pos h, h]
            · have hne : k ≠ name := by
                rcases h with ⟨s2, hs2, hr2⟩
                exact hr2.ne_of_setDoneFailed
              rw [(c2 k).1 h, getTask_setTask, if_neg hne]
          · intro hnot
            have hkn : k ≠ name := fun hc =>
              hnot ⟨name, List.mem_cons_self _ _, by rw [hc]; exact PRReach.refl name hPR⟩
            have hnot2 : ¬∃ s2 ∈ g.dependents_of name ++ rest,
                PRReach g (setTask tasks name setDoneFailedInfo) s2 k := by
              intro hx
              exact hnot (PRReach_unfold_bwd g tasks name rest hPR (Or.inr hx))
            rw [(c2 k).2 hnot2, getTask_setTask, if_neg hkn]
      · -- unknown, terminal, or absent: skip
        have hPRf : isPendingOrRunning tasks name = false := by
          cases hb : isPendingOrRunning tasks name
          · rfl
          · exact absurd hb hPR
        have heq : markFailedLoop g (fuel + 1) (name :: rest) acc tasks =
            markFailedLoop g fuel rest acc tasks := by
          cases hg : getTask tasks name with
          | none => simp [markFailedLoop, hg]
          | some i =>
            cases hr2 : i.run_state with
            | none => simp [markFailedLoop, hg, hr2]
            | some st =>
              cases st with
              | Pending =>
                exfalso
                apply hPR
                simp [isPendingOrRunning, hg, hr2]
              | Running =>
                exfalso
                apply hPR
                simp [isPendingOrRunning, hg, hr2]
              | DoneSuccess => simp [markFailedLoop, hg, hr2]
              | DoneFailed => simp [markFailedLoop, hg, hr2]
        have hfuel2 : failNeeded g rest tasks ≤ fuel := by
          unfold failNeeded at hfuel ⊢
          simp only [List.length_cons] at hfuel
          omega
        obtain ⟨c1, c2, c3, c4⟩ := ih rest acc tasks hfuel2 hnames
        rw [heq]
        refine ⟨?_, ?_, c3, c4⟩
        · intro x
          rw [c1 x, ← PRReach_skip g tasks name rest hPRf x]
        · intro k
          refine ⟨?_, ?_⟩
          · intro hex
            exact (c2 k).1 ((PRReach_skip g tasks name rest hPRf k).mp hex)
          · intro hnot
            exact (c2 k).2 fun hx =>
              hnot ((PRReach_skip g tasks name rest hPRf k).mpr hx)

/-- Characterization of `mark_dependents_failed`: the recorded names are
exactly the tasks reachable from the failed task's direct dependents through
chains of pending-or-running nodes; exactly those tasks are marked
`DoneFailed` (their other fields kept); everything else is untouched. -/
theorem mark_dependents_failed_spec (g : DagGraph) (tasks : Tasks) (t : TaskName)
    (hnames : NamesOk tasks) :
    (∀ x, x ∈ (mark_dependents_failed g tasks t).1 ↔
      ∃ s ∈ g.dependents_of t, PRReach g tasks s x) ∧
    (∀ k, ((∃ s ∈ g.dependents_of t, PRReach g tasks s k) →
        getTask (mark_dependents_failed g tasks t).2 k =
          (getTask tasks k).map setDoneFailedInfo) ∧
      ((¬∃ s ∈ g.dependents_of t, PRReach g tasks s k) →
        getTask (mark_dependents_failed g tasks t).2 k = getTask tasks k)) ∧
    keysOf (mark_dependents_failed g tasks t).2 = keysOf tasks ∧
    NamesOk (mark_dependents_failed g tasks t).2 := by
  have hfuel : failNeeded g (g.dependents_of t) tasks ≤ failFuel g tasks t := by
    unfold failNeeded failFuel
    have hmono : ((tasks.filter prEntry).map
          fun kv => 1 + (g.dependents_of kv.1).length).sum ≤
        ((tasks.filter fun _ => true).map
          fun kv => 1 + (g.dependents_of kv.1).length).sum := by
      apply sum_le_of_filter_imp
      intro a _ _
      rfl
    rw [List.filter_true] at hmono
    omega
  obtain ⟨c1, c2, c3, c4⟩ :=
    markFailedLoop_spec g (failFuel g tasks t) (g.dependents_of t) [] tasks hfuel hnames
  refine ⟨?_, c2, c3, c4⟩
  intro x
  rw [show (mark_dependents_failed g tasks t).1 =
    (markFailedLoop g (failFuel g tasks t) (g.dependents_of t) [] tasks).1 from rfl]
  rw [c1 x]
  simp

/-! ### Spec-side readiness and the first claims -/

/-- Dependency satisfaction exactly as the specification words it (claim C1):
satisfied when `DoneSuccess`; unsatisfied when `DoneFailed`, `Pending`, or
`Running`; when absent from the run, satisfied exactly when the dependency's
`last_successful_run` is non-null.  This definition follows the claim's
wording and is proved equivalent to the source's
`deps_satisfied_for_info`. -/
def SpecDepSatisfied (dep : TaskInfo) : Prop :=
  match dep.run_state with
  | some RunState.DoneSuccess => True
  | some RunState.DoneFailed => False
  | some RunState.Pending => False
  | some RunState.Running => False
  | none => dep.last_successful_run.isSome = true

/-- Readiness as the specification words it: `Pending`, and every dependency
present and satisfied. -/
def SpecReady (tasks : Tasks) (info : TaskInfo) : Prop :=
  info.run_state = some RunState.Pending ∧
    ∀ d ∈ info.deps, ∃ dep, getTask tasks d = some dep ∧ SpecDepSatisfied dep

theorem depSat_pointwise (tasks : Tasks) (d : TaskName) :
    ((match getTask tasks d with
      | none => false
      | some dep =>
        match dep.run_state with
        | some RunState.DoneSuccess => true
        | some RunState.DoneFailed => false
        | some RunState.Pending => false
        | some RunState.Running => false
        | none => dep.last_successful_run.isSome) = true) ↔
      ∃ dep, getTask tasks d = some dep ∧ SpecDepSatisfied dep := by
  cases hget : getTask tasks d with
  | none => simp
  | some dep =>
    cases hrs : dep.run_state with
    | none => simp [SpecDepSatisfied, hrs]
    | some st => cases st <;> simp [SpecDepSatisfied, hrs]

/-- The source's dependency-satisfaction check agrees with the
specification's wording. -/
theorem deps_satisfied_iff_spec (tasks : Tasks) (info : TaskInfo) :
    deps_satisfied_for_info tasks info = true ↔
      ∀ d ∈ info.deps, ∃ dep, getTask tasks d = some dep ∧ SpecDepSatisfied dep := by
  unfold deps_satisfied_for_info
  rw [List.all_eq_true]
  constructor
  · intro h d hd
    exact (depSat_pointwise tasks d).mp (h d hd)
  · intro h d hd
    exact (depSat_pointwise tasks d).mpr (h d hd)

theorem maybe_finish_run_tasks (s : Scheduler) :
    (s.maybe_finish_run).2.tasks = s.tasks := by
  unfold Scheduler.maybe_finish_run
  cases s.current_run_id with
  | none => rfl
  | some r =>
    by_cases h : all_tasks_terminal s.tasks = true
    · simp [h]
    · simp [h]

theorem maybe_finish_run_graph (s : Scheduler) :
    (s.maybe_finish_run).2.graph = s.graph := by
  unfold Scheduler.maybe_finish_run
  cases s.current_run_id with
  | none => rfl
  | some r =>
    by_cases h : all_tasks_terminal s.tasks = true
    · simp [h]
    · simp [h]

/-- `maybe_finish_run` on an active run: the run is reported finished, and
`current_run_id` cleared, exactly when every task is terminal. -/
theorem maybe_finish_run_active (s : Scheduler) (rid : Nat)
    (hrid : s.current_run_id = some rid) :
    ((s.maybe_finish_run).1 = true ↔ all_tasks_terminal s.tasks = true) ∧
    ((s.maybe_finish_run).2.current_run_id = none ↔ all_tasks_terminal s.tasks = true) := by
  unfold Scheduler.maybe_finish_run
  rw [hrid]
  by_cases h : all_tasks_terminal s.tasks = true
  · simp [h, hrid]
  · simp [h, hrid]

/-- The bridge between readiness per the claim's wording and membership in
the candidate list of `collect_new_ready_tasks`. -/
theorem readyCandidates_iff_specReady (tasks : Tasks) (hnd : (keysOf tasks).Nodup)
    (hnames : NamesOk tasks) (k : TaskName) :
    k ∈ readyCandidates tasks ↔
      ∃ info, getTask tasks k = some info ∧ SpecReady tasks info := by
  rw [readyCandidates_mem tasks hnd hnames k]
  constructor
  · rintro ⟨info, hget, hpend, hsat⟩
    exact ⟨info, hget, hpend, (deps_satisfied_iff_spec tasks info).mp hsat⟩
  · rintro ⟨info, hget, hpend, hsat⟩
    exact ⟨info, hget, hpend, (deps_satisfied_iff_spec tasks info).mpr hsat⟩

/-- Claim C1 (confirmed): in a scheduler state with an active run, the set
of tasks returned by `collect_new_ready_tasks` — all of which it transitions
`Pending → Running` — is exactly the set of tasks whose per-run state is
`Pending` and all of whose dependencies are satisfied, where a dependency is
satisfied when `DoneSuccess`, unsatisfied when `DoneFailed`, `Pending`, or
`Running`, and, when absent from the run, satisfied exactly when its
`last_successful_run` is non-null.  The hypotheses carry the `HashMap`
contract (unique keys, `name` fields matching keys). -/
theorem C1_ready_collection (tasks : Tasks) (rid : Nat)
    (hnd : (keysOf tasks).Nodup) (hnames : NamesOk tasks) :
    (∀ k, (∃ st ∈ (collect_new_ready_tasks tasks (some rid)).1,
        ScheduledTask.name st = k) ↔
      ∃ info, getTask tasks k = some info ∧ SpecReady tasks info) ∧
    (∀ k, ((∃ info, getTask tasks k = some info ∧ SpecReady tasks info) →
        getTask (collect_new_ready_tasks tasks (some rid)).2 k =
          (getTask tasks k).map setRunningInfo) ∧
      ((¬∃ info, getTask tasks k = some info ∧ SpecReady tasks info) →
        getTask (collect_new_ready_tasks tasks (some rid)).2 k = getTask tasks k)) := by
  obtain ⟨e1, e2, e3, e4⟩ := collect_new_ready_tasks_spec tasks (some rid) hnames
  constructor
  · intro k
    rw [← readyCandidates_iff_specReady tasks hnd hnames k]
    constructor
    · rintro ⟨st, hst, hname⟩
      rw [e1] at hst
      rw [List.mem_map] at hst
      obtain ⟨c, hc, hcs⟩ := hst
      rw [← hcs] at hname
      exact hname ▸ hc
    · intro hk
      refine ⟨⟨k, rid⟩, ?_, rfl⟩
      rw [e1, List.mem_map]
      exact ⟨k, hk, rfl⟩
  · intro k
    constructor
    · intro hk
      rw [e2 k, if_pos ((readyCandidates_iff_specReady tasks hnd hnames k).mpr hk)]
    · intro hk
      rw [e2 k,
        if_neg (fun hc => hk ((readyCandidates_iff_specReady tasks hnd hnames k).mp hc))]

/-- A concrete two-task state exercising claim C1. -/
def tasksW1 : Tasks :=
  [("a", ⟨"a", [], some RunState.Pending, none, none⟩),
   ("b", ⟨"b", ["a"], some RunState.Pending, none, none⟩)]

/-- Witness for claim C1 at a concrete state. -/
theorem C1_ready_collection_witness :
    ((keysOf tasksW1).Nodup ∧ NamesOk tasksW1) ∧
      ((∀ k, (∃ st ∈ (collect_new_ready_tasks tasksW1 (some 1)).1,
          ScheduledTask.name st = k) ↔
        ∃ info, getTask tasksW1 k = some info ∧ SpecReady tasksW1 info) ∧
      (∀ k, ((∃ info, getTask tasksW1 k = some info ∧ SpecReady tasksW1 info) →
          getTask (collect_new_ready_tasks tasksW1 (some 1)).2 k =
            (getTask tasksW1 k).map setRunningInfo) ∧
        ((¬∃ info, getTask tasksW1 k = some info ∧ SpecReady tasksW1 info) →
          getTask (collect_new_ready_tasks tasksW1 (some 1)).2 k = getTask tasksW1 k))) :=
  ⟨⟨by decide, by decide⟩, C1_ready_collection tasksW1 1 (by decide) (by decide)⟩

/-- Claim C9 (confirmed): with an active run, `handle_progress` on a known
task sets that task's per-run state to `DoneSuccess` and its
`last_successful_run` to the current run id, whatever its prior per-run
state was (a `DoneFailed` cascade entry is reversed, an `Absent` task is
adopted into the run as already succeeded). -/
theorem C9_progress_unconditional (s : Scheduler) (t : TaskName) (rid : Nat)
    (info : TaskInfo) (hrid : s.current_run_id = some rid)
    (hinfo : getTask s.tasks t = some info)
    (hnd : (keysOf s.tasks).Nodup) (hnames : NamesOk s.tasks) :
    getTask ((s.progress_step_internal t).2).tasks t =
      some { info with run_state := some RunState.DoneSuccess,
                       last_successful_run := some rid } := by
  have heq : ((s.progress_step_internal t).2).tasks =
      (collect_new_ready_tasks (setTask s.tasks t (setDoneSuccessInfo rid))
        (some rid)).2 := by
    unfold Scheduler.progress_step_internal
    rw [hrid]
    simp only [hinfo]
    rw [maybe_finish_run_tasks]
  rw [heq]
  have hnames1 : NamesOk (setTask s.tasks t (setDoneSuccessInfo rid)) :=
    namesOk_setTask hnames fun i => rfl
  have hnd1 : (keysOf (setTask s.tasks t (setDoneSuccessInfo rid))).Nodup := by
    rw [keysOf_setTask]
    exact hnd
  obtain ⟨e1, e2, e3, e4⟩ :=
    collect_new_ready_tasks_spec (setTask s.tasks t (setDoneSuccessInfo rid))
      (some rid) hnames1
  have hget1 : getTask (setTask s.tasks t (setDoneSuccessInfo rid)) t =
      some (setDoneSuccessInfo rid info) := by
    rw [getTask_setTask, if_pos rfl, hinfo]
    rfl
  have hnotready : t ∉ readyCandidates (setTask s.tasks t (setDoneSuccessInfo rid)) := by
    intro hmem
    rw [readyCandidates_mem _ hnd1 hnames1] at hmem
    obtain ⟨info2, hget2, hpend, _⟩ := hmem
    rw [hget1] at hget2
    injection hget2 with h2
    rw [← h2] at hpend
    exact absurd hpend (by simp [setDoneSuccessInfo])
  rw [e2 t, if_neg hnotready, hget1]
  rfl

/-- A concrete scheduler state exercising claim C9: the task is `DoneFailed`
in the current run and is resurrected by progress. -/
def schedW9 : Scheduler :=
  ⟨⟨[("a", ⟨[], []⟩)]⟩,
   [("a", ⟨"a", [], some RunState.DoneFailed, none, some 1⟩)], 1, some 1⟩

/-- Witness for claim C9 at a concrete state. -/
theorem C9_progress_unconditional_witness :
    (schedW9.current_run_id = some 1 ∧
      getTask schedW9.tasks "a" = some ⟨"a", [], some RunState.DoneFailed, none, some 1⟩ ∧
      (keysOf schedW9.tasks).Nodup ∧ NamesOk schedW9.tasks) ∧
    getTask ((schedW9.progress_step_internal "a").2).tasks "a" =
      some ⟨"a", [], some RunState.DoneSuccess, some 1, some 1⟩ :=
  ⟨⟨by decide, by decide, by decide, by decide⟩,
    C9_progress_unconditional schedW9 "a" 1 ⟨"a", [], some RunState.DoneFailed, none, some 1⟩
      (by decide) (by decide) (by decide) (by decide)⟩

/-- Claim C2, amended: with an active run and a known task name,
`handle_trigger` first runs the marking phase, which sets every visited task
— the named task and its transitive dependents — whose per-run state is
Absent to `Pending` and leaves every other task's entry untouched (the
original claim, true of this phase); the full step then passes the marked
map through ready collection, which may further transition `Pending` tasks
(visited or not) to `Running`.  The original claim fails as a statement
about `handle_trigger`'s final state: see the counterexample. -/
theorem C2_trigger_char (s : Scheduler) (t : TaskName) (rid : Nat)
    (hrid : s.current_run_id = some rid) (ht : (getTask s.tasks t).isSome = true) :
    (∀ k, (Reach s.graph (keysOf s.tasks) t k →
        getTask (mark_task_and_dependents_pending s.graph s.tasks t) k =
          (getTask s.tasks k).map markPendingInfo) ∧
      (¬Reach s.graph (keysOf s.tasks) t k →
        getTask (mark_task_and_dependents_pending s.graph s.tasks t) k =
          getTask s.tasks k)) ∧
    ((s.trigger_step_internal t).2).tasks =
      (collect_new_ready_tasks (mark_task_and_dependents_pending s.graph s.tasks t)
        (some rid)).2 ∧
    (s.trigger_step_internal t).1.newly_scheduled =
      (collect_new_ready_tasks (mark_task_and_dependents_pending s.graph s.tasks t)
        (some rid)).1 := by
  have h1 : s.current_run_id.isNone = false := by rw [hrid]; rfl
  have heq : (s.trigger_step_internal t).2.tasks =
      (collect_new_ready_tasks (mark_task_and_dependents_pending s.graph s.tasks t)
        (some rid)).2 ∧
      (s.trigger_step_internal t).1.newly_scheduled =
      (collect_new_ready_tasks (mark_task_and_dependents_pending s.graph s.tasks t)
        (some rid)).1 := by
    unfold Scheduler.trigger_step_internal Scheduler.trigger_marked Scheduler.trigger_pre
    rw [h1]
    simp only [Bool.false_eq_true, if_false, ht, if_true]
    rw [maybe_finish_run_tasks]
    rw [hrid]
    exact ⟨rfl, rfl⟩
  exact ⟨(mark_pending_char s.graph s.tasks t).1, heq.1, heq.2⟩

/-- A one-task scheduler state with an active run and the task absent. -/
def schedC2 : Scheduler :=
  ⟨⟨[("a", ⟨[], []⟩)]⟩, [("a", ⟨"a", [], none, none, none⟩)], 1, some 1⟩

/-- Counterexample to claim C2 as stated: in `schedC2` the task `a` is
Absent and is the trigger root (hence visited), yet after `handle_trigger`
its per-run state is `Running`, not `Pending` — ready collection runs inside
`handle_trigger` after the marking phase. -/
theorem C2_counterexample :
    (getTask schedC2.tasks "a").map TaskInfo.run_state = some none ∧
    schedC2.current_run_id = some 1 ∧
    (getTask ((schedC2.trigger_step_internal "a").2).tasks "a").map TaskInfo.run_state =
      some (some RunState.Running) := by
  refine ⟨by decide, by decide, by decide⟩

/-- Witness for the amended claim C2 at a concrete state. -/
theorem C2_trigger_char_witness :
    (schedC2.current_run_id = some 1 ∧ (getTask schedC2.tasks "a").isSome = true) ∧
    ((∀ k, (Reach schedC2.graph (keysOf schedC2.tasks) "a" k →
        getTask (mark_task_and_dependents_pending schedC2.graph schedC2.tasks "a") k =
          (getTask schedC2.tasks k).map markPendingInfo) ∧
      (¬Reach schedC2.graph (keysOf schedC2.tasks) "a" k →
        getTask (mark_task_and_dependents_pending schedC2.graph schedC2.tasks "a") k =
          getTask schedC2.tasks k)) ∧
    ((schedC2.trigger_step_internal "a").2).tasks =
      (collect_new_ready_tasks
        (mark_task_and_dependents_pending schedC2.graph schedC2.tasks "a") (some 1)).2 ∧
    (schedC2.trigger_step_internal "a").1.newly_scheduled =
      (collect_new_ready_tasks
        (mark_task_and_dependents_pending schedC2.graph schedC2.tasks "a") (some 1)).1) :=
  ⟨⟨by decide, by decide⟩, C2_trigger_char schedC2 "a" 1 (by decide) (by decide)⟩

/-- Claim C3, amended: with an active run, `handle_completion(t, Failed code)`
sets `t` to `DoneFailed` with `last_failed_run := current run id`, records
`t` first in `newly_failed`, and cascade-fails exactly the tasks reachable
from `t`'s direct dependents through chains of tasks that are `Pending` or
`Running` (evaluated after `t` is marked, so the chains do not pass through
`t`); every other task's entry — in particular a `Pending` or `Running`
transitive dependent reachable only through a `DoneSuccess`, `DoneFailed`,
or Absent intermediate — is untouched.  The original claim ("exactly those
transitive dependents whose state is Pending or Running") fails: see the
counterexample. -/
theorem C3_completion_failed_char (s : Scheduler) (t : TaskName) (code : Int)
    (rid : Nat) (info : TaskInfo) (hrid : s.current_run_id = some rid)
    (hinfo : getTask s.tasks t = some info) (hnames : NamesOk s.tasks) :
    (getTask ((s.completion_step_internal t (TaskOutcome.Failed code)).2).tasks t =
      some { info with run_state := some RunState.DoneFailed,
                       last_failed_run := some rid }) ∧
    (∀ x, x ∈ (s.completion_step_internal t (TaskOutcome.Failed code)).1.newly_failed ↔
      x = t ∨ ∃ s2 ∈ s.graph.dependents_of t,
        PRReach s.graph (setTask s.tasks t (setFailedRootInfo rid)) s2 x) ∧
    (∀ k, k ≠ t →
      ((∃ s2 ∈ s.graph.dependents_of t,
          PRReach s.graph (setTask s.tasks t (setFailedRootInfo rid)) s2 k) →
        getTask ((s.completion_step_internal t (TaskOutcome.Failed code)).2).tasks k =
          (getTask s.tasks k).map setDoneFailedInfo) ∧
      ((¬∃ s2 ∈ s.graph.dependents_of t,
          PRReach s.graph (setTask s.tasks t (setFailedRootInfo rid)) s2 k) →
        getTask ((s.completion_step_internal t (TaskOutcome.Failed code)).2).tasks k =
          getTask s.tasks k)) := by
  have hnames1 : NamesOk (setTask s.tasks t (setFailedRootInfo rid)) :=
    namesOk_setTask hnames fun i => rfl
  have heq : ((s.completion_step_internal t (TaskOutcome.Failed code)).2).tasks =
      (mark_dependents_failed s.graph (setTask s.tasks t (setFailedRootInfo rid)) t).2 ∧
      (s.completion_step_internal t (TaskOutcome.Failed code)).1.newly_failed =
      info.name ::
        (mark_dependents_failed s.graph (setTask s.tasks t (setFailedRootInfo rid)) t).1 := by
    unfold Scheduler.completion_step_internal
    rw [hrid]
    simp only [hinfo]
    rw [maybe_finish_run_tasks]
    exact ⟨rfl, trivial⟩
  obtain ⟨c1, c2, c3, c4⟩ :=
    mark_dependents_failed_spec s.graph (setTask s.tasks t (setFailedRootInfo rid)) t hnames1
  have hget1 : getTask (setTask s.tasks t (setFailedRootInfo rid)) t =
      some (setFailedRootInfo rid info) := by
    rw [getTask_setTask, if_pos rfl, hinfo]
    rfl
  have hnott : ¬∃ s2 ∈ s.graph.dependents_of t,
      PRReach s.graph (setTask s.tasks t (setFailedRootInfo rid)) s2 t := by
    rintro ⟨s2, hs2, hr⟩
    have := hr.dest
    unfold isPendingOrRunning at this
    rw [hget1] at this
    exact absurd this (by simp [setFailedRootInfo])
  refine ⟨?_, ?_, ?_⟩
  · rw [heq.1, (c2 t).2 hnott, hget1]
    rfl
  · intro x
    rw [heq.2]
    rw [List.mem_cons, c1 x]
    have hname : info.name = t := namesOk_getTask hnames hinfo
    rw [hname]
  · intro k hk
    have hgetk : getTask (setTask s.tasks t (setFailedRootInfo rid)) k =
        getTask s.tasks k := by
      rw [getTask_setTask, if_neg hk]
    constructor
    · intro hex
      rw [heq.1, (c2 k).1 hex, hgetk]
    · intro hnex
      rw [heq.1, (c2 k).2 hnex, hgetk]

/-- A chain `t → m → d` with `t` running, `m` already succeeded via
progress, and `d` pending: the state reached by triggering `t`, collecting
`t` as ready, and then handling progress for `m`. -/
def schedC3 : Scheduler :=
  ⟨⟨[("t", ⟨[], ["m"]⟩), ("m", ⟨["t"], ["d"]⟩), ("d", ⟨["m"], []⟩)]⟩,
   [("t", ⟨"t", [], some RunState.Running, none, none⟩),
    ("m", ⟨"m", ["t"], some RunState.DoneSuccess, some 1, none⟩),
    ("d", ⟨"d", ["m"], some RunState.Pending, none, none⟩)],
   1, some 1⟩

/-- Counterexample to claim C3 as stated: in `schedC3`, `d` is a transitive
dependent of `t` (via `m`) with per-run state `Pending`, yet after
`handle_completion("t", Failed 2)` it is still `Pending`, not `DoneFailed`:
the cascade stops at the `DoneSuccess` intermediate `m`. -/
theorem C3_counterexample :
    schedC3.current_run_id = some 1 ∧
    ("m" ∈ schedC3.graph.dependents_of "t" ∧ "d" ∈ schedC3.graph.dependents_of "m") ∧
    (getTask schedC3.tasks "d").map TaskInfo.run_state = some (some RunState.Pending) ∧
    (getTask ((schedC3.completion_step_internal "t" (TaskOutcome.Failed 2)).2).tasks
        "d").map TaskInfo.run_state = some (some RunState.Pending) := by
  refine ⟨by decide, ⟨by decide, by decide⟩, by decide, by decide⟩

/-- Witness for the amended claim C3 at the same concrete state. -/
theorem C3_completion_failed_char_witness :
    (schedC3.current_run_id = some 1 ∧
      getTask schedC3.tasks "t" = some ⟨"t", [], some RunState.Running, none, none⟩ ∧
      NamesOk schedC3.tasks) ∧
    ((getTask ((schedC3.completion_step_internal "t" (TaskOutcome.Failed 2)).2).tasks "t" =
      some ⟨"t", [], some RunState.DoneFailed, none, some 1⟩) ∧
    (∀ x, x ∈ (schedC3.completion_step_internal "t" (TaskOutcome.Failed 2)).1.newly_failed ↔
      x = "t" ∨ ∃ s2 ∈ schedC3.graph.dependents_of "t",
        PRReach schedC3.graph (setTask schedC3.tasks "t" (setFailedRootInfo 1)) s2 x) ∧
    (∀ k, k ≠ "t" →
      ((∃ s2 ∈ schedC3.graph.dependents_of "t",
          PRReach schedC3.graph (setTask schedC3.tasks "t" (setFailedRootInfo 1)) s2 k) →
        getTask ((schedC3.completion_step_internal "t" (TaskOutcome.Failed 2)).2).tasks k =
          (getTask schedC3.tasks k).map setDoneFailedInfo) ∧
      ((¬∃ s2 ∈ schedC3.graph.dependents_of "t",
          PRReach schedC3.graph (setTask schedC3.tasks "t" (setFailedRootInfo 1)) s2 k) →
        getTask ((schedC3.completion_step_internal "t" (TaskOutcome.Failed 2)).2).tasks k =
          getTask schedC3.tasks k))) :=
  ⟨⟨by decide, by decide, by decide⟩,
    C3_completion_failed_char schedC3 "t" 2 1 ⟨"t", [], some RunState.Running, none, none⟩
      (by decide) (by decide) (by decide)⟩

/-! ### Per-stage run-state transfer lemmas (towards the reachable-state
invariants) -/

/-- The per-run state of a task as a flat option (`none` covers both a task
absent from the run and a name missing from the map; a missing name is never
`Running` or `DoneFailed`, which is all the invariants below care about). -/
def rsOf (tasks : Tasks) (k : TaskName) : Option RunState :=
  match getTask tasks k with
  | some i => i.run_state
  | none => none

/-- Statics preservation: every entry of the second map comes from an entry
of the first with the same `name` and `deps`. -/
def StaticsLe (ts1 ts2 : Tasks) : Prop :=
  ∀ k i2, getTask ts2 k = some i2 →
    ∃ i1, getTask ts1 k = some i1 ∧ i2.name = i1.name ∧ i2.deps = i1.deps

theorem staticsLe_trans {ts1 ts2 ts3 : Tasks} (h12 : StaticsLe ts1 ts2)
    (h23 : StaticsLe ts2 ts3) : StaticsLe ts1 ts3 := by
  intro k i3 h3
  obtain ⟨i2, h2, hn2, hd2⟩ := h23 k i3 h3
  obtain ⟨i1, h1, hn1, hd1⟩ := h12 k i2 h2
  exact ⟨i1, h1, hn2.trans hn1, hd2.trans hd1⟩

theorem staticsLe_setTask (ts : Tasks) (n : TaskName) (f : TaskInfo → TaskInfo)
    (hf : ∀ i, (f i).name = i.name ∧ (f i).deps = i.deps) :
    StaticsLe ts (setTask ts n f) := by
  intro k i2 h2
  rw [getTask_setTask] at h2
  by_cases hk : k = n
  · rw [if_pos hk] at h2
    cases h1 : getTask ts n with
    | none => rw [h1] at h2; simp at h2
    | some i1 =>
      rw [h1] at h2
      simp only [Option.map_some'] at h2
      injection h2 with h2
      rw [hk, h1]
      exact ⟨i1, rfl, h2 ▸ (hf i1).1, h2 ▸ (hf i1).2⟩
  · rw [if_neg hk] at h2
    exact ⟨i2, h2, rfl, rfl⟩

/-- Run-state transfer through `collect_new_ready_tasks`: no new
`DoneFailed`; any newly `Running` task was a ready candidate. -/
theorem collect_rs (ts : Tasks) (rid : Option Nat) (hnd : (keysOf ts).Nodup)
    (hnames : NamesOk ts) (k : TaskName) :
    (rsOf (collect_new_ready_tasks ts rid).2 k = some RunState.DoneFailed →
      rsOf ts k = some RunState.DoneFailed) ∧
    (rsOf (collect_new_ready_tasks ts rid).2 k = some RunState.Running →
      rsOf ts k = some RunState.Running ∨
        ∃ info, getTask ts k = some info ∧ info.run_state = some RunState.Pending ∧
          deps_satisfied_for_info ts info = true) := by
  obtain ⟨e1, e2, e3, e4⟩ := collect_new_ready_tasks_spec ts rid hnames
  have he := e2 k
  by_cases hk : k ∈ readyCandidates ts
  · rw [if_pos hk] at he
    have hmem := (readyCandidates_mem ts hnd hnames k).mp hk
    obtain ⟨info, hinfo, hpend, hsat⟩ := hmem
    constructor
    · intro hdf
      unfold rsOf at hdf
      rw [he, hinfo] at hdf
      simp [setRunningInfo] at hdf
    · intro _
      exact Or.inr ⟨info, hinfo, hpend, hsat⟩
  · rw [if_neg hk] at he
    constructor
    · intro hdf
      unfold rsOf at hdf ⊢
      rw [he] at hdf
      exact hdf
    · intro hr
      left
      unfold rsOf at hr ⊢
      rw [he] at hr
      exact hr

theorem collect_statics (ts : Tasks) (rid : Option Nat) (hnames : NamesOk ts) :
    StaticsLe ts (collect_new_ready_tasks ts rid).2 := by
  obtain ⟨e1, e2, e3, e4⟩ := collect_new_ready_tasks_spec ts rid hnames
  intro k i2 h2
  have he := e2 k
  by_cases hk : k ∈ readyCandidates ts
  · rw [if_pos hk] at he
    rw [he] at h2
    cases h1 : getTask ts k with
    | none => rw [h1] at h2; simp at h2
    | some i1 =>
      rw [h1] at h2
      simp only [Option.map_some'] at h2
      injection h2 with h2
      exact ⟨i1, rfl, h2 ▸ rfl, h2 ▸ rfl⟩
  · rw [if_neg hk] at he
    rw [he] at h2
    exact ⟨i2, h2, rfl, rfl⟩

/-- Run-state transfer through `mark_task_and_dependents_pending`: no new
`DoneFailed` and no new `Running` (the marking phase only creates
`Pending`). -/
theorem mark_rs (g : DagGraph) (ts : Tasks) (root : TaskName) (k : TaskName) :
    (rsOf (mark_task_and_dependents_pending g ts root) k = some RunState.DoneFailed →
      rsOf ts k = some RunState.DoneFailed) ∧
    (rsOf (mark_task_and_dependents_pending g ts root) k = some RunState.Running →
      rsOf ts k = some RunState.Running) := by
  obtain ⟨hchar, hkeys⟩ := mark_pending_char g ts root
  have hk := hchar k
  by_cases hreach : Reach g (keysOf ts) root k
  · have he := hk.1 hreach
    constructor
    · intro hdf
      unfold rsOf at hdf ⊢
      rw [he] at hdf
      cases h1 : getTask ts k with
      | none => rw [h1] at hdf; simp at hdf
      | some i1 =>
        rw [h1] at hdf
        simp only [Option.map_some'] at hdf
        unfold markPendingInfo at hdf
        by_cases hrs : i1.run_state.isNone
        · rw [if_pos hrs] at hdf
          simp at hdf
        · rw [if_neg hrs] at hdf
          exact hdf
    · intro hr
      unfold rsOf at hr ⊢
      rw [he] at hr
      cases h1 : getTask ts k with
      | none => rw [h1] at hr; simp at hr
      | some i1 =>
        rw [h1] at hr
        simp only [Option.map_some'] at hr
        unfold markPendingInfo at hr
        by_cases hrs : i1.run_state.isNone
        · rw [if_pos hrs] at hr
          simp at hr
        · rw [if_neg hrs] at hr
          exact hr
  · have he := hk.2 hreach
    unfold rsOf
    rw [he]
    exact ⟨fun h => h, fun h => h⟩

theorem mark_statics (g : DagGraph) (ts : Tasks) (root : TaskName) :
    StaticsLe ts (mark_task_and_dependents_pending g ts root) := by
  obtain ⟨hchar, hkeys⟩ := mark_pending_char g ts root
  intro k i2 h2
  have hk := hchar k
  by_cases hreach : Reach g (keysOf ts) root k
  · have he := hk.1 hreach
    rw [he] at h2
    cases h1 : getTask ts k with
    | none => rw [h1] at h2; simp at h2
    | some i1 =>
      rw [h1] at h2
      simp only [Option.map_some'] at h2
      injection h2 with h2
      refine ⟨i1, rfl, ?_, ?_⟩
      · rw [← h2]
        unfold markPendingInfo
        by_cases hrs : i1.run_state.isNone
        · rw [if_pos hrs]
        · rw [if_neg hrs]
      · rw [← h2]
        unfold markPendingInfo
        by_cases hrs : i1.run_state.isNone
        · rw [if_pos hrs]
        · rw [if_neg hrs]
  · have he := hk.2 hreach
    rw [he] at h2
    exact ⟨i2, h2, rfl, rfl⟩

/-- Run-state transfer through `mark_dependents_failed`: new `DoneFailed`
only on cascade-reachable tasks; no `Running` task survives among the
cascade-reachable ones, and no new `Running` appears. -/
theorem cascade_rs (g : DagGraph) (ts : Tasks) (t : TaskName) (hnames : NamesOk ts)
    (k : TaskName) :
    (rsOf (mark_dependents_failed g ts t).2 k = some RunState.DoneFailed →
      rsOf ts k = some RunState.DoneFailed ∨
        ∃ s2 ∈ g.dependents_of t, PRReach g ts s2 k) ∧
    (rsOf (mark_dependents_failed g ts t).2 k = some RunState.Running →
      rsOf ts k = some RunState.Running ∧
        ¬∃ s2 ∈ g.dependents_of t, PRReach g ts s2 k) := by
  obtain ⟨c1, c2, c3, c4⟩ := mark_dependents_failed_spec g ts t hnames
  by_cases hm : ∃ s2 ∈ g.dependents_of t, PRReach g ts s2 k
  · have he := (c2 k).1 hm
    constructor
    · intro _
      exact Or.inr hm
    · intro hr
      exfalso
      unfold rsOf at hr
      rw [he] at hr
      cases h1 : getTask ts k with
      | none => rw [h1] at hr; simp at hr
      | some i1 =>
        rw [h1] at hr
        simp [setDoneFailedInfo] at hr
  · have he := (c2 k).2 hm
    unfold rsOf
    rw [he]
    exact ⟨fun h => Or.inl h, fun h => ⟨h, hm⟩⟩

theorem cascade_statics (g : DagGraph) (ts : Tasks) (t : TaskName)
    (hnames : NamesOk ts) : StaticsLe ts (mark_dependents_failed g ts t).2 := by
  obtain ⟨c1, c2, c3, c4⟩ := mark_dependents_failed_spec g ts t hnames
  intro k i2 h2
  by_cases hm : ∃ s2 ∈ g.dependents_of t, PRReach g ts s2 k
  · have he := (c2 k).1 hm
    rw [he] at h2
    cases h1 : getTask ts k with
    | none => rw [h1] at h2; simp at h2
    | some i1 =>
      rw [h1] at h2
      simp only [Option.map_some'] at h2
      injection h2 with h2
      exact ⟨i1, rfl, h2 ▸ rfl, h2 ▸ rfl⟩
  · have he := (c2 k).2 hm
    rw [he] at h2
    exact ⟨i2, h2, rfl, rfl⟩

/-- After `start_new_run` every task's per-run state is cleared. -/
theorem start_new_run_rs (s : Scheduler) (k : TaskName) :
    rsOf (s.start_new_run).tasks k = none := by
  unfold rsOf Scheduler.start_new_run
  simp only
  rw [getTask_mapVals]
  cases getTask s.tasks k with
  | none => rfl
  | some i => rfl

theorem start_new_run_statics (s : Scheduler) :
    StaticsLe s.tasks (s.start_new_run).tasks := by
  intro k i2 h2
  unfold Scheduler.start_new_run at h2
  simp only at h2
  rw [getTask_mapVals] at h2
  cases h1 : getTask s.tasks k with
  | none => rw [h1] at h2; simp at h2
  | some i1 =>
    rw [h1] at h2
    simp only [Option.map_some'] at h2
    injection h2 with h2
    exact ⟨i1, rfl, h2 ▸ rfl, h2 ▸ rfl⟩

theorem rsOf_setTask (ts : Tasks) (n : TaskName) (f : TaskInfo → TaskInfo)
    (k : TaskName) :
    rsOf (setTask ts n f) k =
      if k = n then
        (match getTask ts n with
         | some i => (f i).run_state
         | none => none)
      else rsOf ts k := by
  unfold rsOf
  rw [getTask_setTask]
  by_cases hk : k = n
  · rw [if_pos hk, if_pos hk]
    cases getTask ts n with
    | none => rfl
    | some i => rfl
  · rw [if_neg hk, if_neg hk]

/-! ### Configuration and scheduler construction -/

/-- Per-task configuration (`struct TaskConfig` in `config/model.rs`); only
the dependency list `after` reaches the scheduler logic under verification,
the remaining fields (command, flags, patterns) are carried verbatim. -/
structure TaskConfig where
  after : List TaskName
deriving DecidableEq, Repr

/-- A validated configuration (`struct ConfigFile`): the task table. -/
structure ConfigFile where
  task : List (TaskName × TaskConfig)
deriving DecidableEq, Repr

/-- Lookup in the graph's node map. -/
def getNode (nodes : List (TaskName × DagNode)) (name : TaskName) : Option DagNode :=
  (nodes.find? fun kv => kv.1 = name).map Prod.snd

/-- `nodes.get_mut(k)` plus mutation, for graph nodes. -/
def setNode (nodes : List (TaskName × DagNode)) (n : TaskName) (f : DagNode → DagNode) :
    List (TaskName × DagNode) :=
  nodes.map fun kv => if kv.1 = n then (kv.1, f kv.2) else kv

/-- `DagGraph::from_config`'s second pass: `dep_node.dependents.push(task_name)`
for a known dep, no-op otherwise. -/
def pushDependent (nodes : List (TaskName × DagNode)) (dep task_name : TaskName) :
    List (TaskName × DagNode) :=
  setNode nodes dep fun nd => { nd with dependents := nd.dependents ++ [task_name] }

theorem getNode_cons (kv : TaskName × DagNode) (ns : List (TaskName × DagNode))
    (k : TaskName) :
    getNode (kv :: ns) k = if kv.1 = k then some kv.2 else getNode ns k := by
  by_cases h : kv.1 = k <;> simp [getNode, List.find?_cons, h]

theorem setNode_cons (kv : TaskName × DagNode) (ns : List (TaskName × DagNode))
    (n : TaskName) (f : DagNode → DagNode) :
    setNode (kv :: ns) n f =
      (if kv.1 = n then (kv.1, f kv.2) else kv) :: setNode ns n f := rfl

theorem getNode_setNode (ns : List (TaskName × DagNode)) (n : TaskName)
    (f : DagNode → DagNode) (k : TaskName) :
    getNode (setNode ns n f) k = if k = n then (getNode ns n).map f else getNode ns k := by
  induction ns with
  | nil => by_cases h : k = n <;> simp [getNode, setNode, h]
  | cons kv ns ih =>
    rw [setNode_cons]
    by_cases h1 : kv.1 = n <;> by_cases h3 : kv.1 = k
    · have h2 : k = n := h3 ▸ h1
      subst h2
      simp [getNode_cons, h1, h3]
    · have h2 : ¬k = n := fun hc => h3 (h1.trans hc.symm)
      simp only [getNode_cons, if_pos h1, if_neg h3, if_neg h2] at ih ⊢
      simpa [h2] using ih
    · have h2 : ¬k = n := fun hc => h1 (h3.trans hc)
      simp [getNode_cons, h1, h3, h2]
    · simp only [getNode_cons, if_neg h1, if_neg h3]
      by_cases h2 : k = n
      · subst h2
        simpa [getNode_cons, h3] using ih
      · simpa [h2] using ih

/-- Keys of a node map. -/
def nodeKeys (nodes : List (TaskName × DagNode)) : List TaskName :=
  nodes.map Prod.fst

theorem nodeKeys_setNode (ns : List (TaskName × DagNode)) (n : TaskName)
    (f : DagNode → DagNode) : nodeKeys (setNode ns n f) = nodeKeys ns := by
  induction ns with
  | nil => rfl
  | cons kv ns ih =>
    rw [setNode_cons]
    by_cases h : kv.1 = n
    · rw [if_pos h]
      show kv.1 :: nodeKeys (setNode ns n f) = kv.1 :: nodeKeys ns
      rw [ih]
    · rw [if_neg h]
      show kv.1 :: nodeKeys (setNode ns n f) = kv.1 :: nodeKeys ns
      rw [ih]

theorem getNode_isSome_iff_mem (ns : List (TaskName × DagNode)) (k : TaskName) :
    (getNode ns k).isSome = true ↔ k ∈ nodeKeys ns := by
  induction ns with
  | nil => simp [getNode, nodeKeys]
  | cons kv ns ih =>
    rw [getNode_cons]
    by_cases h : kv.1 = k
    · simp [nodeKeys, h]
    · rw [if_neg h]
      show (getNode ns k).isSome = true ↔ k ∈ kv.1 :: nodeKeys ns
      rw [List.mem_cons, ih]
      constructor
      · exact fun hk => Or.inr hk
      · rintro (hk | hk)
        · exact absurd hk.symm h
        · exact hk

/-- The `deps` view of a node map entry. -/
def nodeDeps (nodes : List (TaskName × DagNode)) (k : TaskName) : List TaskName :=
  match getNode nodes k with
  | some nd => nd.deps
  | none => []

/-- The `dependents` view of a node map entry. -/
def nodeDependents (nodes : List (TaskName × DagNode)) (k : TaskName) : List TaskName :=
  match getNode nodes k with
  | some nd => nd.dependents
  | none => []

theorem nodeDeps_pushDependent (ns : List (TaskName × DagNode)) (dep tn k : TaskName) :
    nodeDeps (pushDependent ns dep tn) k = nodeDeps ns k := by
  unfold nodeDeps pushDependent
  rw [getNode_setNode]
  by_cases hk : k = dep
  · rw [if_pos hk, hk]
    cases getNode ns dep with
    | none => rfl
    | some nd => rfl
  · rw [if_neg hk]

theorem nodeDependents_pushDependent_mono (ns : List (TaskName × DagNode))
    (dep tn k x : TaskName) (hx : x ∈ nodeDependents ns k) :
    x ∈ nodeDependents (pushDependent ns dep tn) k := by
  unfold nodeDependents at hx ⊢
  unfold pushDependent
  rw [getNode_setNode]
  by_cases hk : k = dep
  · rw [if_pos hk]
    rw [hk] at hx
    cases h : getNode ns dep with
    | none => rw [h] at hx; simp at hx
    | some nd =>
      rw [h] at hx
      simp only [Option.map_some']
      exact List.mem_append_left _ hx
  · rw [if_neg hk]
    exact hx

theorem nodeDependents_pushDependent_self (ns : List (TaskName × DagNode))
    (dep tn : TaskName) (hdep : dep ∈ nodeKeys ns) :
    tn ∈ nodeDependents (pushDependent ns dep tn) dep := by
  unfold nodeDependents pushDependent
  rw [getNode_setNode, if_pos rfl]
  cases h : getNode ns dep with
  | none =>
    exfalso
    have := (getNode_isSome_iff_mem ns dep).mpr hdep
    rw [h] at this
    simp at this
  | some nd =>
    simp only [Option.map_some']
    exact List.mem_append_right _ (List.mem_singleton.mpr rfl)

theorem nodeKeys_pushDependent (ns : List (TaskName × DagNode)) (dep tn : TaskName) :
    nodeKeys (pushDependent ns dep tn) = nodeKeys ns :=
  nodeKeys_setNode ns dep _

/-- The inner fold of `DagGraph::from_config`'s second pass, over the deps
of one task. -/
theorem innerFold_spec (tn : TaskName) :
    ∀ (deps : List TaskName) (ns : List (TaskName × DagNode)),
      (∀ k, nodeDeps (deps.foldl (fun nodes dep => pushDependent nodes dep tn) ns) k =
        nodeDeps ns k) ∧
      nodeKeys (deps.foldl (fun nodes dep => pushDependent nodes dep tn) ns) = nodeKeys ns ∧
      (∀ k x, x ∈ nodeDependents ns k →
        x ∈ nodeDependents (deps.foldl (fun nodes dep => pushDependent nodes dep tn) ns) k) ∧
      (∀ d ∈ deps, d ∈ nodeKeys ns →
        tn ∈ nodeDependents (deps.foldl (fun nodes dep => pushDependent nodes dep tn) ns) d) := by
  intro deps
  induction deps with
  | nil => exact fun ns => ⟨fun k => rfl, rfl, fun k x hx => hx, by simp⟩
  | cons d ds ih =>
    intro ns
    obtain ⟨i1, i2, i3, i4⟩ := ih (pushDependent ns d tn)
    rw [List.foldl_cons]
    refine ⟨?_, ?_, ?_, ?_⟩
    · intro k
      rw [i1 k, nodeDeps_pushDependent]
    · rw [i2, nodeKeys_pushDependent]
    · intro k x hx
      exact i3 k x (nodeDependents_pushDependent_mono ns d tn k x hx)
    · intro d2 hd2 hkey
      rcases List.mem_cons.mp hd2 with h | h
      · subst h
        exact i3 d2 tn (nodeDependents_pushDependent_self ns d2 tn hkey)
      · exact i4 d2 h (by rw [nodeKeys_pushDependent]; exact hkey)

/-- One step of the outer fold. -/
def outerStep (nodes : List (TaskName × DagNode)) (task_name : TaskName) :
    List (TaskName × DagNode) :=
  let deps :=
    match getNode nodes task_name with
    | some n => n.deps
    | none => []
  deps.foldl (fun nodes dep => pushDependent nodes dep task_name) nodes

/-- The outer fold of `DagGraph::from_config`'s second pass. -/
theorem outerFold_spec :
    ∀ (L : List TaskName) (ns : List (TaskName × DagNode)),
      (∀ k, nodeDeps (L.foldl outerStep ns) k = nodeDeps ns k) ∧
      nodeKeys (L.foldl outerStep ns) = nodeKeys ns ∧
      (∀ k x, x ∈ nodeDependents ns k → x ∈ nodeDependents (L.foldl outerStep ns) k) ∧
      (∀ r ∈ L, ∀ d, d ∈ nodeDeps ns r → d ∈ nodeKeys ns →
        r ∈ nodeDependents (L.foldl outerStep ns) d) := by
  intro L
  induction L with
  | nil => exact fun ns => ⟨fun k => rfl, rfl, fun k x hx => hx, by simp⟩
  | cons tn L ih =>
    intro ns
    obtain ⟨j1, j2, j3, j4⟩ := innerFold_spec tn
      (match getNode ns tn with | some n => n.deps | none => []) ns
    obtain ⟨i1, i2, i3, i4⟩ := ih (outerStep ns tn)
    rw [List.foldl_cons]
    have houter : outerStep ns tn =
        (match getNode ns tn with | some n => n.deps | none => []).foldl
          (fun nodes dep => pushDependent nodes dep tn) ns := rfl
    refine ⟨?_, ?_, ?_, ?_⟩
    · intro k
      rw [i1 k, houter, j1 k]
    · rw [i2, houter, j2]
    · intro k x hx
      exact i3 k x (houter ▸ j3 k x hx)
    · intro r hr d hd hkey
      rcases List.mem_cons.mp hr with h | h
      · subst h
        have hd2 : d ∈ (match getNode ns r with | some n => n.deps | none => []) := by
          unfold nodeDeps at hd
          exact hd
        exact i3 d r (houter ▸ j4 d hd2 hkey)
      · refine i4 r h d ?_ ?_
        · rw [houter, j1 r]
          exact hd
        · rw [houter, j2]
          exact hkey

/-- `DagGraph::from_config` (`dag/graph.rs`): first pass creates one node per
task holding its `after` list; the second pass walks every task and appends
it to each of its (known) deps' `dependents`. -/
def DagGraph.from_config (cfg : ConfigFile) : DagGraph :=
  let nodes0 : List (TaskName × DagNode) := cfg.task.map fun kv => (kv.1, ⟨kv.2.after, []⟩)
  let task_names := nodes0.map Prod.fst
  ⟨task_names.foldl outerStep nodes0⟩

/-- `Scheduler::from_config`: one `TaskInfo` per configured task, deps taken
from the graph, no per-run state, no history. -/
def Scheduler.from_config (cfg : ConfigFile) : Scheduler :=
  let graph := DagGraph.from_config cfg
  ⟨graph,
   cfg.task.map fun kv => (kv.1, ⟨kv.1, graph.dependencies_of kv.1, none, none, none⟩),
   0, none⟩

theorem getTask_keyFun (L : List (TaskName × TaskConfig)) (h : TaskName → TaskInfo)
    (k : TaskName) :
    getTask (L.map fun kv => (kv.1, h kv.1)) k =
      if k ∈ L.map Prod.fst then some (h k) else none := by
  induction L with
  | nil => simp [getTask]
  | cons kv L ih =>
    rw [List.map_cons, getTask_cons,
      show (List.map Prod.fst (kv :: L)) = kv.1 :: List.map Prod.fst L from rfl]
    by_cases hk : kv.1 = k
    · rw [if_pos hk, if_pos (List.mem_cons.mpr (Or.inl hk.symm))]
      show some (h kv.1) = some (h k)
      rw [hk]
    · rw [if_neg hk, ih]
      by_cases hmem : k ∈ L.map Prod.fst
      · rw [if_pos hmem, if_pos (List.mem_cons.mpr (Or.inr hmem))]
      · rw [if_neg hmem,
          if_neg (fun hc => by
            rcases List.mem_cons.mp hc with h2 | h2
            · exact hk h2.symm
            · exact hmem h2)]

/-! ### Well-formedness and reachable states -/

/-- The edge contract the configuration loader establishes: whenever a task
of the map depends on another task of the map, the depending task appears in
the dependency's `dependents` list of the graph. -/
def EdgeOkT (g : DagGraph) (ts : Tasks) : Prop :=
  ∀ r infor, getTask ts r = some infor → ∀ d ∈ infor.deps,
    (getTask ts d).isSome = true → r ∈ g.dependents_of d

/-- Structural well-formedness of a scheduler state: the `HashMap` contract
(unique keys, `name` fields equal to keys) and the loader's edge contract. -/
def WF (s : Scheduler) : Prop :=
  (keysOf s.tasks).Nodup ∧ NamesOk s.tasks ∧ EdgeOkT s.graph s.tasks

theorem staticsLe_refl (ts : Tasks) : StaticsLe ts ts :=
  fun _ i2 h2 => ⟨i2, h2, rfl, rfl⟩

theorem namesOk_of_staticsLe {ts1 ts2 : Tasks} (hnd2 : (keysOf ts2).Nodup)
    (hst : StaticsLe ts1 ts2) (h1 : NamesOk ts1) : NamesOk ts2 := by
  intro kv hkv
  have hget : getTask ts2 kv.1 = some kv.2 := mem_getTask_of_nodup hnd2 hkv
  obtain ⟨i1, h1g, hn, _⟩ := hst kv.1 kv.2 hget
  rw [hn]
  exact namesOk_getTask h1 h1g

theorem edgeOkT_transfer {g : DagGraph} {ts1 ts2 : Tasks}
    (hkeys : keysOf ts2 = keysOf ts1) (hst : StaticsLe ts1 ts2)
    (h : EdgeOkT g ts1) : EdgeOkT g ts2 := by
  intro r i2 h2 d hd hds
  obtain ⟨i1, h1, _, hdeps⟩ := hst r i2 h2
  refine h r i1 h1 d (hdeps ▸ hd) ?_
  rw [getTask_isSome_iff_mem_keys] at hds ⊢
  rw [hkeys] at hds
  exact hds

theorem wf_of_shape {s s2 : Scheduler} (h : WF s) (hg : s2.graph = s.graph)
    (hk : keysOf s2.tasks = keysOf s.tasks) (hst : StaticsLe s.tasks s2.tasks) :
    WF s2 := by
  obtain ⟨hnd, hnames, hedge⟩ := h
  have hnd2 : (keysOf s2.tasks).Nodup := hk ▸ hnd
  refine ⟨hnd2, namesOk_of_staticsLe hnd2 hst hnames, ?_⟩
  rw [hg]
  exact edgeOkT_transfer hk hst hedge

theorem start_new_run_shape (s : Scheduler) :
    (s.start_new_run).graph = s.graph ∧
    keysOf (s.start_new_run).tasks = keysOf s.tasks ∧
    StaticsLe s.tasks (s.start_new_run).tasks :=
  ⟨rfl, keysOf_mapVals s.tasks clearRunStateInfo, start_new_run_statics s⟩

theorem trigger_pre_shape (s : Scheduler) :
    (s.trigger_pre).graph = s.graph ∧
    keysOf (s.trigger_pre).tasks = keysOf s.tasks ∧
    StaticsLe s.tasks (s.trigger_pre).tasks := by
  unfold Scheduler.trigger_pre
  by_cases h : s.current_run_id.isNone = true
  · rw [if_pos h]
    exact start_new_run_shape s
  · rw [if_neg h]
    exact ⟨rfl, rfl, staticsLe_refl s.tasks⟩

theorem trigger_marked_shape (s : Scheduler) (t : TaskName) :
    (s.trigger_marked t).graph = s.graph ∧
    keysOf (s.trigger_marked t).tasks = keysOf s.tasks ∧
    StaticsLe s.tasks (s.trigger_marked t).tasks := by
  obtain ⟨hg, hk, hst⟩ := trigger_pre_shape s
  unfold Scheduler.trigger_marked
  by_cases h : (getTask (s.trigger_pre).tasks t).isSome = true
  · rw [if_pos h]
    refine ⟨hg, ?_, ?_⟩
    · show keysOf (mark_task_and_dependents_pending (s.trigger_pre).graph
        (s.trigger_pre).tasks t) = keysOf s.tasks
      rw [(mark_pending_char (s.trigger_pre).graph (s.trigger_pre).tasks t).2, hk]
    · exact staticsLe_trans hst
        (mark_statics (s.trigger_pre).graph (s.trigger_pre).tasks t)
  · rw [if_neg h]
    exact ⟨hg, hk, hst⟩

theorem trigger_tasks_eq (s : Scheduler) (t : TaskName) :
    (s.trigger_step_internal t).2.tasks =
      (collect_new_ready_tasks (s.trigger_marked t).tasks
        (s.trigger_marked t).current_run_id).2 := by
  unfold Scheduler.trigger_step_internal
  rw [maybe_finish_run_tasks]

theorem trigger_graph_eq (s : Scheduler) (t : TaskName) :
    (s.trigger_step_internal t).2.graph = s.graph := by
  unfold Scheduler.trigger_step_internal
  rw [maybe_finish_run_graph]
  exact (trigger_marked_shape s t).1

theorem trigger_shape (s : Scheduler) (t : TaskName)
    (hnd : (keysOf s.tasks).Nodup) (hnames : NamesOk s.tasks) :
    (s.trigger_step_internal t).2.graph = s.graph ∧
    keysOf (s.trigger_step_internal t).2.tasks = keysOf s.tasks ∧
    StaticsLe s.tasks (s.trigger_step_internal t).2.tasks := by
  obtain ⟨hg2, hk2, hst2⟩ := trigger_marked_shape s t
  have hnd2 : (keysOf (s.trigger_marked t).tasks).Nodup := hk2 ▸ hnd
  have hnames2 : NamesOk (s.trigger_marked t).tasks :=
    namesOk_of_staticsLe hnd2 hst2 hnames
  obtain ⟨e1, e2, e3, e4⟩ := collect_new_ready_tasks_spec (s.trigger_marked t).tasks
    (s.trigger_marked t).current_run_id hnames2
  have htasks := trigger_tasks_eq s t
  refine ⟨trigger_graph_eq s t, ?_, ?_⟩
  · rw [htasks, e3, hk2]
  · rw [htasks]
    exact staticsLe_trans hst2
      (collect_statics (s.trigger_marked t).tasks (s.trigger_marked t).current_run_id
        hnames2)

theorem progress_eqs (s : Scheduler) (t : TaskName) (rid : Nat) (info : TaskInfo)
    (hrid : s.current_run_id = some rid) (hinfo : getTask s.tasks t = some info) :
    (s.progress_step_internal t).2.tasks =
      (collect_new_ready_tasks (setTask s.tasks t (setDoneSuccessInfo rid))
        (some rid)).2 ∧
    (s.progress_step_internal t).2.graph = s.graph := by
  unfold Scheduler.progress_step_internal
  rw [hrid]
  simp only [hinfo]
  rw [maybe_finish_run_tasks, maybe_finish_run_graph]
  exact ⟨rfl, rfl⟩

theorem progress_shape (s : Scheduler) (t : TaskName)
    (_hnd : (keysOf s.tasks).Nodup) (hnames : NamesOk s.tasks) :
    (s.progress_step_internal t).2.graph = s.graph ∧
    keysOf (s.progress_step_internal t).2.tasks = keysOf s.tasks ∧
    StaticsLe s.tasks (s.progress_step_internal t).2.tasks := by
  cases hrid : s.current_run_id with
  | none =>
    have hpost : (s.progress_step_internal t).2 = s := by
      unfold Scheduler.progress_step_internal
      rw [hrid]
    rw [hpost]
    exact ⟨rfl, rfl, staticsLe_refl s.tasks⟩
  | some rid =>
    cases hinfo : getTask s.tasks t with
    | none =>
      have hpost : (s.progress_step_internal t).2 = s := by
        unfold Scheduler.progress_step_internal
        rw [hrid]
        simp only [hinfo]
      rw [hpost]
      exact ⟨rfl, rfl, staticsLe_refl s.tasks⟩
    | some info =>
      obtain ⟨htasks, hgraph⟩ := progress_eqs s t rid info hrid hinfo
      have hst1 : StaticsLe s.tasks (setTask s.tasks t (setDoneSuccessInfo rid)) :=
        staticsLe_setTask s.tasks t (setDoneSuccessInfo rid) fun i => ⟨rfl, rfl⟩
      have hk1 : keysOf (setTask s.tasks t (setDoneSuccessInfo rid)) = keysOf s.tasks :=
        keysOf_setTask s.tasks t (setDoneSuccessInfo rid)
      have hnames1 : NamesOk (setTask s.tasks t (setDoneSuccessInfo rid)) :=
        namesOk_setTask hnames fun i => rfl
      obtain ⟨e1, e2, e3, e4⟩ := collect_new_ready_tasks_spec
        (setTask s.tasks t (setDoneSuccessInfo rid)) (some rid) hnames1
      refine ⟨hgraph, ?_, ?_⟩
      · rw [htasks, e3, hk1]
      · rw [htasks]
        exact staticsLe_trans hst1
          (collect_statics (setTask s.tasks t (setDoneSuccessInfo rid)) (some rid)
            hnames1)

theorem completion_success_eqs (s : Scheduler) (t : TaskName) (rid : Nat)
    (info : TaskInfo) (hrid : s.current_run_id = some rid)
    (hinfo : getTask s.tasks t = some info) :
    (s.completion_step_internal t TaskOutcome.Success).2.tasks =
      (collect_new_ready_tasks (setTask s.tasks t (setDoneSuccessInfo rid))
        (some rid)).2 ∧
    (s.completion_step_internal t TaskOutcome.Success).2.graph = s.graph := by
  unfold Scheduler.completion_step_internal
  rw [hrid]
  simp only [hinfo]
  rw [maybe_finish_run_tasks, maybe_finish_run_graph]
  exact ⟨rfl, rfl⟩

theorem completion_failed_eqs (s : Scheduler) (t : TaskName) (code : Int)
    (rid : Nat) (info : TaskInfo) (hrid : s.current_run_id = some rid)
    (hinfo : getTask s.tasks t = some info) :
    (s.completion_step_internal t (TaskOutcome.Failed code)).2.tasks =
      (mark_dependents_failed s.graph (setTask s.tasks t (setFailedRootInfo rid)) t).2 ∧
    (s.completion_step_internal t (TaskOutcome.Failed code)).2.graph = s.graph := by
  unfold Scheduler.completion_step_internal
  rw [hrid]
  simp only [hinfo]
  rw [maybe_finish_run_tasks, maybe_finish_run_graph]
  exact ⟨rfl, rfl⟩

theorem completion_shape (s : Scheduler) (t : TaskName) (outcome : TaskOutcome)
    (_hnd : (keysOf s.tasks).Nodup) (hnames : NamesOk s.tasks) :
    (s.completion_step_internal t outcome).2.graph = s.graph ∧
    keysOf (s.completion_step_internal t outcome).2.tasks = keysOf s.tasks ∧
    StaticsLe s.tasks (s.completion_step_internal t outcome).2.tasks := by
  cases hrid : s.current_run_id with
  | none =>
    have hpost : (s.completion_step_internal t outcome).2 = s := by
      unfold Scheduler.completion_step_internal
      rw [hrid]
    rw [hpost]
    exact ⟨rfl, rfl, staticsLe_refl s.tasks⟩
  | some rid =>
    cases hinfo : getTask s.tasks t with
    | none =>
      have heq : (s.completion_step_internal t outcome).2.tasks = s.tasks ∧
          (s.completion_step_internal t outcome).2.graph = s.graph := by
        unfold Scheduler.completion_step_internal
        rw [hrid]
        simp only [hinfo]
        rw [maybe_finish_run_tasks, maybe_finish_run_graph]
        exact ⟨rfl, rfl⟩
      refine ⟨heq.2, ?_, ?_⟩
      · rw [heq.1]
      · rw [heq.1]
        exact staticsLe_refl s.tasks
    | some info =>
      cases outcome with
      | Success =>
        obtain ⟨htasks, hgraph⟩ := completion_success_eqs s t rid info hrid hinfo
        have hst1 : StaticsLe s.tasks (setTask s.tasks t (setDoneSuccessInfo rid)) :=
          staticsLe_setTask s.tasks t (setDoneSuccessInfo rid) fun i => ⟨rfl, rfl⟩
        have hnames1 : NamesOk (setTask s.tasks t (setDoneSuccessInfo rid)) :=
          namesOk_setTask hnames fun i => rfl
        obtain ⟨e1, e2, e3, e4⟩ := collect_new_ready_tasks_spec
          (setTask s.tasks t (setDoneSuccessInfo rid)) (some rid) hnames1
        refine ⟨hgraph, ?_, ?_⟩
        · rw [htasks, e3, keysOf_setTask]
        · rw [htasks]
          exact staticsLe_trans hst1
            (collect_statics (setTask s.tasks t (setDoneSuccessInfo rid)) (some rid)
              hnames1)
      | Failed code =>
        obtain ⟨htasks, hgraph⟩ := completion_failed_eqs s t code rid info hrid hinfo
        have hst1 : StaticsLe s.tasks (setTask s.tasks t (setFailedRootInfo rid)) :=
          staticsLe_setTask s.tasks t (setFailedRootInfo rid) fun i => ⟨rfl, rfl⟩
        have hnames1 : NamesOk (setTask s.tasks t (setFailedRootInfo rid)) :=
          namesOk_setTask hnames fun i => rfl
        obtain ⟨c1, c2, c3, c4⟩ := mark_dependents_failed_spec s.graph
          (setTask s.tasks t (setFailedRootInfo rid)) t hnames1
        refine ⟨hgraph, ?_, ?_⟩
        · rw [htasks, c3, keysOf_setTask]
        · rw [htasks]
          exact staticsLe_trans hst1
            (cascade_statics s.graph (setTask s.tasks t (setFailedRootInfo rid)) t
              hnames1)

/-- The reachable scheduler states: the loader output, closed under the four
public operations (`start_new_run`, `handle_trigger`, `handle_progress`,
`handle_completion`). -/
inductive Reachable (cfg : ConfigFile) : Scheduler → Prop
  | init : Reachable cfg (Scheduler.from_config cfg)
  | start {s : Scheduler} : Reachable cfg s → Reachable cfg s.start_new_run
  | trigger {s : Scheduler} (t : TaskName) : Reachable cfg s →
      Reachable cfg (s.trigger_step_internal t).2
  | progress {s : Scheduler} (t : TaskName) : Reachable cfg s →
      Reachable cfg (s.progress_step_internal t).2
  | completion {s : Scheduler} (t : TaskName) (outcome : TaskOutcome) :
      Reachable cfg s → Reachable cfg (s.completion_step_internal t outcome).2

theorem map_fst_keyFun {A B C : Type} (L : List (A × B)) (g : A × B → C) :
    (L.map fun kv => (kv.1, g kv)).map Prod.fst = L.map Prod.fst := by
  induction L with
  | nil => rfl
  | cons kv L ih => simp [ih]

/-- The first-pass node map of `DagGraph::from_config`. -/
def cfgNodes0 (cfg : ConfigFile) : List (TaskName × DagNode) :=
  cfg.task.map fun kv => (kv.1, ⟨kv.2.after, []⟩)

theorem from_config_graph (cfg : ConfigFile) :
    (Scheduler.from_config cfg).graph = DagGraph.from_config cfg := rfl

theorem from_config_nodes (cfg : ConfigFile) :
    (DagGraph.from_config cfg).nodes =
      (nodeKeys (cfgNodes0 cfg)).foldl outerStep (cfgNodes0 cfg) := rfl

theorem dependencies_of_eq_nodeDeps (g : DagGraph) (k : TaskName) :
    g.dependencies_of k = nodeDeps g.nodes k := rfl

theorem dependents_of_eq_nodeDependents (g : DagGraph) (k : TaskName) :
    g.dependents_of k = nodeDependents g.nodes k := rfl

theorem nodeKeys_cfgNodes0 (cfg : ConfigFile) :
    nodeKeys (cfgNodes0 cfg) = cfg.task.map Prod.fst :=
  map_fst_keyFun cfg.task fun kv => (⟨kv.2.after, []⟩ : DagNode)

theorem from_config_getTask (cfg : ConfigFile) (k : TaskName) :
    getTask (Scheduler.from_config cfg).tasks k =
      if k ∈ cfg.task.map Prod.fst then
        some ⟨k, (DagGraph.from_config cfg).dependencies_of k, none, none, none⟩
      else none :=
  getTask_keyFun cfg.task
    (fun n => ⟨n, (DagGraph.from_config cfg).dependencies_of n, none, none, none⟩) k

theorem from_config_keysOf (cfg : ConfigFile) :
    keysOf (Scheduler.from_config cfg).tasks = cfg.task.map Prod.fst :=
  map_fst_keyFun cfg.task
    (fun kv =>
      (⟨kv.1, (DagGraph.from_config cfg).dependencies_of kv.1, none, none, none⟩ :
        TaskInfo))

theorem wf_from_config (cfg : ConfigFile)
    (hnd : (cfg.task.map Prod.fst).Nodup) : WF (Scheduler.from_config cfg) := by
  refine ⟨?_, ?_, ?_⟩
  · rw [from_config_keysOf]
    exact hnd
  · intro kv hkv
    simp only [Scheduler.from_config, List.mem_map] at hkv
    obtain ⟨kv0, _, heq⟩ := hkv
    rw [← heq]
  · intro r infor hr d hd hds
    rw [from_config_getTask] at hr
    by_cases hrmem : r ∈ cfg.task.map Prod.fst
    · rw [if_pos hrmem] at hr
      injection hr with hr
      rw [← hr] at hd
      have hdmem : d ∈ cfg.task.map Prod.fst := by
        rw [getTask_isSome_iff_mem_keys, from_config_keysOf] at hds
        exact hds
      obtain ⟨j1, j2, j3, j4⟩ :=
        outerFold_spec (nodeKeys (cfgNodes0 cfg)) (cfgNodes0 cfg)
      have hd0 : d ∈ nodeDeps (cfgNodes0 cfg) r := by
        have hdepseq : (DagGraph.from_config cfg).dependencies_of r =
            nodeDeps (cfgNodes0 cfg) r := by
          rw [dependencies_of_eq_nodeDeps, from_config_nodes]
          exact j1 r
        rw [hdepseq] at hd
        exact hd
      have hrkeys : r ∈ nodeKeys (cfgNodes0 cfg) := by
        rw [nodeKeys_cfgNodes0]
        exact hrmem
      have hdkeys : d ∈ nodeKeys (cfgNodes0 cfg) := by
        rw [nodeKeys_cfgNodes0]
        exact hdmem
      rw [from_config_graph, dependents_of_eq_nodeDependents, from_config_nodes]
      exact j4 r hrkeys d hd0 hdkeys
    · rw [if_neg hrmem] at hr
      exact absurd hr (by simp)

theorem wf_reachable {cfg : ConfigFile} {s : Scheduler}
    (hnd : (cfg.task.map Prod.fst).Nodup) (h : Reachable cfg s) : WF s := by
  induction h with
  | init => exact wf_from_config cfg hnd
  | start _ ih =>
    obtain ⟨hg, hk, hst⟩ := start_new_run_shape _
    exact wf_of_shape ih hg hk hst
  | trigger t _ ih =>
    obtain ⟨hg, hk, hst⟩ := trigger_shape _ t ih.1 ih.2.1
    exact wf_of_shape ih hg hk hst
  | progress t _ ih =>
    obtain ⟨hg, hk, hst⟩ := progress_shape _ t ih.1 ih.2.1
    exact wf_of_shape ih hg hk hst
  | completion t outcome _ ih =>
    obtain ⟨hg, hk, hst⟩ := completion_shape _ t outcome ih.1 ih.2.1
    exact wf_of_shape ih hg hk hst

/-! ### The cascade invariant: no `Running` task with a `DoneFailed` dep -/

theorem rsOf_eq_run_state {ts : Tasks} {k : TaskName} {i : TaskInfo}
    (h : getTask ts k = some i) : rsOf ts k = i.run_state := by
  unfold rsOf
  rw [h]

theorem isPR_iff (ts : Tasks) (k : TaskName) :
    isPendingOrRunning ts k = true ↔
      (rsOf ts k = some RunState.Pending ∨ rsOf ts k = some RunState.Running) := by
  unfold isPendingOrRunning rsOf
  cases getTask ts k with
  | none => simp
  | some i =>
    obtain ⟨n, dd, rs, a, b⟩ := i
    cases rs with
    | none => simp
    | some st => cases st <;> simp

theorem isPR_isSome {ts : Tasks} {k : TaskName}
    (h : isPendingOrRunning ts k = true) : (getTask ts k).isSome = true := by
  unfold isPendingOrRunning at h
  cases hg : getTask ts k with
  | none => rw [hg] at h; exact absurd h (by simp)
  | some i => simp

theorem specDepSat_ne_DF {dep : TaskInfo} (h : SpecDepSatisfied dep) :
    dep.run_state ≠ some RunState.DoneFailed := by
  intro hc
  unfold SpecDepSatisfied at h
  rw [hc] at h
  exact h

/-- The amended C4 invariant: no task is `Running` while one of its direct
dependencies is `DoneFailed` in the same run. -/
def NoRunDF (ts : Tasks) : Prop :=
  ∀ r infor, getTask ts r = some infor →
    infor.run_state = some RunState.Running →
    ∀ d ∈ infor.deps, rsOf ts d ≠ some RunState.DoneFailed

theorem noRunDF_transfer {ts1 ts2 : Tasks} (hst : StaticsLe ts1 ts2)
    (hR : ∀ k, rsOf ts2 k = some RunState.Running →
      rsOf ts1 k = some RunState.Running)
    (hF : ∀ k, rsOf ts2 k = some RunState.DoneFailed →
      rsOf ts1 k = some RunState.DoneFailed)
    (h : NoRunDF ts1) : NoRunDF ts2 := by
  intro r infor h2 hrun d hd hdf
  obtain ⟨i1, h1, _, hdeps⟩ := hst r infor h2
  have hrun1 : rsOf ts1 r = some RunState.Running := by
    apply hR
    rw [rsOf_eq_run_state h2]
    exact hrun
  rw [rsOf_eq_run_state h1] at hrun1
  exact h r i1 h1 hrun1 d (hdeps ▸ hd) (hF d hdf)

theorem noRunDF_collect (ts : Tasks) (rid : Option Nat)
    (hnd : (keysOf ts).Nodup) (hnames : NamesOk ts) (h : NoRunDF ts) :
    NoRunDF (collect_new_ready_tasks ts rid).2 := by
  intro r infor h2 hrun d hd hdf
  obtain ⟨i1, h1, _, hdeps⟩ := collect_statics ts rid hnames r infor h2
  have hdf1 : rsOf ts d = some RunState.DoneFailed :=
    (collect_rs ts rid hnd hnames d).1 hdf
  have hrun2 : rsOf (collect_new_ready_tasks ts rid).2 r = some RunState.Running := by
    rw [rsOf_eq_run_state h2]
    exact hrun
  rcases (collect_rs ts rid hnd hnames r).2 hrun2 with hpre | ⟨info0, hinfo0, _, hsat0⟩
  · rw [rsOf_eq_run_state h1] at hpre
    exact h r i1 h1 hpre d (hdeps ▸ hd) hdf1
  · have heq : info0 = i1 := by
      rw [h1] at hinfo0
      injection hinfo0 with hq
      exact hq.symm
    obtain ⟨dep, hdep, hspec⟩ :=
      (deps_satisfied_iff_spec ts info0).mp hsat0 d (heq ▸ hdeps ▸ hd)
    rw [rsOf_eq_run_state hdep] at hdf1
    exact specDepSat_ne_DF hspec hdf1

theorem noRunDF_mark (g : DagGraph) (ts : Tasks) (root : TaskName)
    (h : NoRunDF ts) : NoRunDF (mark_task_and_dependents_pending g ts root) :=
  noRunDF_transfer (mark_statics g ts root) (fun k => (mark_rs g ts root k).2)
    (fun k => (mark_rs g ts root k).1) h

theorem noRunDF_setDS (ts : Tasks) (t : TaskName) (rid : Nat)
    (h : NoRunDF ts) : NoRunDF (setTask ts t (setDoneSuccessInfo rid)) := by
  refine noRunDF_transfer
    (staticsLe_setTask ts t (setDoneSuccessInfo rid) fun i => ⟨rfl, rfl⟩) ?_ ?_ h
  · intro k hk
    rw [rsOf_setTask] at hk
    by_cases hkt : k = t
    · rw [if_pos hkt] at hk
      cases hg : getTask ts t with
      | none => rw [hg] at hk; exact absurd hk (by simp)
      | some i =>
        rw [hg] at hk
        exact absurd hk (by simp [setDoneSuccessInfo])
    · rw [if_neg hkt] at hk
      exact hk
  · intro k hk
    rw [rsOf_setTask] at hk
    by_cases hkt : k = t
    · rw [if_pos hkt] at hk
      cases hg : getTask ts t with
      | none => rw [hg] at hk; exact absurd hk (by simp)
      | some i =>
        rw [hg] at hk
        exact absurd hk (by simp [setDoneSuccessInfo])
    · rw [if_neg hkt] at hk
      exact hk

theorem noRunDF_start_tasks (s : Scheduler) : NoRunDF s.start_new_run.tasks := by
  intro r infor h2 hrun d hd hdf
  have h3 := start_new_run_rs s r
  rw [rsOf_eq_run_state h2, hrun] at h3
  exact absurd h3 (by simp)

theorem rsOf_setFailedRoot (ts : Tasks) (t : TaskName) (info : TaskInfo)
    (hinfo : getTask ts t = some info) (rid : Nat) (k : TaskName) :
    rsOf (setTask ts t (setFailedRootInfo rid)) k =
      if k = t then some RunState.DoneFailed else rsOf ts k := by
  rw [rsOf_setTask]
  by_cases hkt : k = t
  · rw [if_pos hkt, if_pos hkt, hinfo]
    rfl
  · rw [if_neg hkt, if_neg hkt]

/-- Completion on failure preserves the C4 invariant: the cascade converts
every pending-or-running task whose dependency chain leads to the newly
failed task through pending-or-running nodes, and the loader's edge
contract makes every `deps` entry a `dependents` edge the cascade walks. -/
theorem noRunDF_completion_failed (g : DagGraph) (ts : Tasks) (t : TaskName)
    (rid : Nat) (info : TaskInfo) (hinfo : getTask ts t = some info)
    (hnames : NamesOk ts) (hedge : EdgeOkT g ts) (h : NoRunDF ts) :
    NoRunDF (mark_dependents_failed g (setTask ts t (setFailedRootInfo rid)) t).2 := by
  have hnamesM : NamesOk (setTask ts t (setFailedRootInfo rid)) :=
    namesOk_setTask hnames fun i => rfl
  have hkM : keysOf (setTask ts t (setFailedRootInfo rid)) = keysOf ts :=
    keysOf_setTask ts t (setFailedRootInfo rid)
  have hstM : StaticsLe ts (setTask ts t (setFailedRootInfo rid)) :=
    staticsLe_setTask ts t (setFailedRootInfo rid) fun i => ⟨rfl, rfl⟩
  have hedgeM : EdgeOkT g (setTask ts t (setFailedRootInfo rid)) :=
    edgeOkT_transfer hkM hstM hedge
  intro r infor h2 hrun d hd hdf
  obtain ⟨iM, hM, _, hdepsM⟩ :=
    cascade_statics g (setTask ts t (setFailedRootInfo rid)) t hnamesM r infor h2
  have hrunPost :
      rsOf (mark_dependents_failed g (setTask ts t (setFailedRootInfo rid)) t).2 r =
        some RunState.Running := by
    rw [rsOf_eq_run_state h2]
    exact hrun
  obtain ⟨hrunM, hNotReach⟩ :=
    (cascade_rs g (setTask ts t (setFailedRootInfo rid)) t hnamesM r).2 hrunPost
  have hrt : r ≠ t := by
    intro hc
    rw [hc, rsOf_setFailedRoot ts t info hinfo rid t, if_pos rfl] at hrunM
    exact absurd hrunM (by simp)
  have hrunPre : rsOf ts r = some RunState.Running := by
    rw [rsOf_setFailedRoot ts t info hinfo rid r, if_neg hrt] at hrunM
    exact hrunM
  have hdM : d ∈ iM.deps := hdepsM ▸ hd
  have hPRr : isPendingOrRunning (setTask ts t (setFailedRootInfo rid)) r = true := by
    refine (isPR_iff _ r).mpr (Or.inr ?_)
    rw [rsOf_setFailedRoot ts t info hinfo rid r, if_neg hrt]
    exact hrunPre
  rcases (cascade_rs g (setTask ts t (setFailedRootInfo rid)) t hnamesM d).1 hdf with
    hdfM | ⟨s2, hs2, hPR⟩
  · by_cases hdt : d = t
    · -- the failing dep is the completed task itself: `r` is then a
      -- pending-or-running direct dependent of `t`, so the cascade reaches
      -- it, contradicting that `r` survived as `Running`.
      have hts : (getTask (setTask ts t (setFailedRootInfo rid)) d).isSome = true := by
        rw [hdt, getTask_setTask, if_pos rfl, hinfo]
        rfl
      have hredge : r ∈ g.dependents_of d := hedgeM r iM hM d hdM hts
      exact absurd ⟨r, hdt ▸ hredge, PRReach.refl r hPRr⟩ hNotReach
    · have hdfPre : rsOf ts d = some RunState.DoneFailed := by
        rw [rsOf_setFailedRoot ts t info hinfo rid d, if_neg hdt] at hdfM
        exact hdfM
      obtain ⟨i0, h0, _, hdeps0⟩ := hstM r iM hM
      have hrun0 : i0.run_state = some RunState.Running := by
        rw [rsOf_eq_run_state h0] at hrunPre
        exact hrunPre
      exact h r i0 h0 hrun0 d (hdeps0 ▸ hdM) hdfPre
  · -- `d` is cascade-reached and the `d → r` dependents edge extends the
    -- pending-or-running chain to `r`, again contradicting survival.
    have hdPR : isPendingOrRunning (setTask ts t (setFailedRootInfo rid)) d = true :=
      hPR.dest
    have hredge : r ∈ g.dependents_of d :=
      hedgeM r iM hM d hdM (isPR_isSome hdPR)
    exact absurd ⟨s2, hs2, PRReach.tail hPR hredge hPRr⟩ hNotReach

theorem noRunDF_trigger (s : Scheduler) (t : TaskName)
    (hnd : (keysOf s.tasks).Nodup) (hnames : NamesOk s.tasks)
    (h : NoRunDF s.tasks) : NoRunDF (s.trigger_step_internal t).2.tasks := by
  obtain ⟨hg2, hk2, hst2⟩ := trigger_marked_shape s t
  have hnd2 : (keysOf (s.trigger_marked t).tasks).Nodup := hk2 ▸ hnd
  have hnames2 : NamesOk (s.trigger_marked t).tasks :=
    namesOk_of_staticsLe hnd2 hst2 hnames
  have hpre : NoRunDF (s.trigger_pre).tasks := by
    unfold Scheduler.trigger_pre
    by_cases hidle : s.current_run_id.isNone = true
    · rw [if_pos hidle]
      exact noRunDF_start_tasks s
    · rw [if_neg hidle]
      exact h
  have hmarked : NoRunDF (s.trigger_marked t).tasks := by
    unfold Scheduler.trigger_marked
    by_cases hk : (getTask (s.trigger_pre).tasks t).isSome = true
    · rw [if_pos hk]
      exact noRunDF_mark (s.trigger_pre).graph (s.trigger_pre).tasks t hpre
    · rw [if_neg hk]
      exact hpre
  rw [trigger_tasks_eq]
  exact noRunDF_collect (s.trigger_marked t).tasks (s.trigger_marked t).current_run_id
    hnd2 hnames2 hmarked

theorem noRunDF_progress (s : Scheduler) (t : TaskName)
    (hnd : (keysOf s.tasks).Nodup) (hnames : NamesOk s.tasks)
    (h : NoRunDF s.tasks) : NoRunDF (s.progress_step_internal t).2.tasks := by
  cases hrid : s.current_run_id with
  | none =>
    have hpost : (s.progress_step_internal t).2 = s := by
      unfold Scheduler.progress_step_internal
      rw [hrid]
    rw [hpost]
    exact h
  | some rid =>
    cases hinfo : getTask s.tasks t with
    | none =>
      have hpost : (s.progress_step_internal t).2 = s := by
        unfold Scheduler.progress_step_internal
        rw [hrid]
        simp only [hinfo]
      rw [hpost]
      exact h
    | some info =>
      obtain ⟨htasks, _⟩ := progress_eqs s t rid info hrid hinfo
      rw [htasks]
      exact noRunDF_collect (setTask s.tasks t (setDoneSuccessInfo rid)) (some rid)
        (by rw [keysOf_setTask]; exact hnd) (namesOk_setTask hnames fun i => rfl)
        (noRunDF_setDS s.tasks t rid h)

theorem noRunDF_completion (s : Scheduler) (t : TaskName) (outcome : TaskOutcome)
    (hwf : WF s) (h : NoRunDF s.tasks) :
    NoRunDF (s.completion_step_internal t outcome).2.tasks := by
  obtain ⟨hnd, hnames, hedge⟩ := hwf
  cases hrid : s.current_run_id with
  | none =>
    have hpost : (s.completion_step_internal t outcome).2 = s := by
      unfold Scheduler.completion_step_internal
      rw [hrid]
    rw [hpost]
    exact h
  | some rid =>
    cases hinfo : getTask s.tasks t with
    | none =>
      have heq : (s.completion_step_internal t outcome).2.tasks = s.tasks := by
        unfold Scheduler.completion_step_internal
        rw [hrid]
        simp only [hinfo]
        rw [maybe_finish_run_tasks]
      rw [heq]
      exact h
    | some info =>
      cases outcome with
      | Success =>
        obtain ⟨htasks, _⟩ := completion_success_eqs s t rid info hrid hinfo
        rw [htasks]
        exact noRunDF_collect (setTask s.tasks t (setDoneSuccessInfo rid)) (some rid)
          (by rw [keysOf_setTask]; exact hnd) (namesOk_setTask hnames fun i => rfl)
          (noRunDF_setDS s.tasks t rid h)
      | Failed code =>
        obtain ⟨htasks, _⟩ := completion_failed_eqs s t code rid info hrid hinfo
        rw [htasks]
        exact noRunDF_completion_failed s.graph s.tasks t rid info hinfo hnames hedge h

theorem noRunDF_reachable {cfg : ConfigFile} {s : Scheduler}
    (hnd : (cfg.task.map Prod.fst).Nodup) (h : Reachable cfg s) :
    NoRunDF s.tasks := by
  induction h with
  | init =>
    intro r infor h2 hrun d hd hdf
    rw [from_config_getTask] at h2
    by_cases hm : r ∈ cfg.task.map Prod.fst
    · rw [if_pos hm] at h2
      injection h2 with h2
      rw [← h2] at hrun
      exact absurd hrun (by simp)
    · rw [if_neg hm] at h2
      exact absurd h2 (by simp)
  | start _ _ => exact noRunDF_start_tasks _
  | trigger t hpre ih =>
    obtain ⟨hnds, hnames, _⟩ := wf_reachable hnd hpre
    exact noRunDF_trigger _ t hnds hnames ih
  | progress t hpre ih =>
    obtain ⟨hnds, hnames, _⟩ := wf_reachable hnd hpre
    exact noRunDF_progress _ t hnds hnames ih
  | completion t outcome hpre ih =>
    exact noRunDF_completion _ t outcome (wf_reachable hnd hpre) ih

/-- Claim C4, amended: in every reachable scheduler state (any sequence of
`start_new_run`, `handle_trigger`, `handle_progress`, `handle_completion`
from a configuration with distinct task names), no task is `Running` while
one of its direct dependencies is `DoneFailed` in the same run.  The
original claim also forbade `Pending` and `Running` dependencies under a
`Running` task; that part is false — triggering a task mid-run can re-mark
an already-consumed dependency `Pending` below a still-`Running` dependent
(see the counterexample) — so only the `DoneFailed` clause is an invariant. -/
theorem C4_no_running_with_faileddep (cfg : ConfigFile)
    (hnd : (cfg.task.map Prod.fst).Nodup) (s : Scheduler) (h : Reachable cfg s)
    (r : TaskName) (infor : TaskInfo) (hr : getTask s.tasks r = some infor)
    (hrun : infor.run_state = some RunState.Running) (d : TaskName)
    (hd : d ∈ infor.deps) : rsOf s.tasks d ≠ some RunState.DoneFailed :=
  noRunDF_reachable hnd h r infor hr hrun d hd

/-- A two-task configuration (`b` after `a`) for exercising claim C4. -/
def cfgW4 : ConfigFile := ⟨[("a", ⟨[]⟩), ("b", ⟨["a"]⟩)]⟩

/-- Trigger `a`, then complete it successfully: `b` is now `Running` with
its dependency `a` done. -/
def schedW4 : Scheduler :=
  (((Scheduler.from_config cfgW4).trigger_step_internal "a").2.completion_step_internal
    "a" TaskOutcome.Success).2

/-- Witness for the amended claim C4 at a concrete reachable state with a
`Running` task that has a dependency. -/
theorem C4_no_running_with_faileddep_witness :
    ((cfgW4.task.map Prod.fst).Nodup ∧ Reachable cfgW4 schedW4 ∧
      getTask schedW4.tasks "b" =
        some ⟨"b", ["a"], some RunState.Running, none, none⟩ ∧
      (⟨"b", ["a"], some RunState.Running, none, none⟩ : TaskInfo).run_state =
        some RunState.Running ∧
      "a" ∈ (⟨"b", ["a"], some RunState.Running, none, none⟩ : TaskInfo).deps) ∧
    rsOf schedW4.tasks "a" ≠ some RunState.DoneFailed :=
  ⟨⟨by decide,
    Reachable.completion "a" TaskOutcome.Success (Reachable.trigger "a" Reachable.init),
    by decide, by decide, by decide⟩,
   C4_no_running_with_faileddep cfgW4 (by decide) schedW4
    (Reachable.completion "a" TaskOutcome.Success (Reachable.trigger "a" Reachable.init))
    "b" ⟨"b", ["a"], some RunState.Running, none, none⟩ (by decide) (by decide)
    "a" (by decide)⟩

/-- A three-task chain configuration (`e`, then `d` after `e`, then `t`
after `d`) for refuting the `Pending`/`Running` clauses of claim C4. -/
def cfgC4 : ConfigFile := ⟨[("e", ⟨[]⟩), ("d", ⟨["e"]⟩), ("t", ⟨["d"]⟩)]⟩

/-- Run the whole chain successfully once; in a second run trigger `t`
(which starts `Running` on the strength of `d`'s historical success), then
trigger `e` mid-run, re-marking `d` as `Pending` underneath the still
`Running` `t`. -/
def schedC4 : Scheduler :=
  (((((((Scheduler.from_config cfgC4).trigger_step_internal
    "e").2.completion_step_internal
    "e" TaskOutcome.Success).2.completion_step_internal
    "d" TaskOutcome.Success).2.completion_step_internal
    "t" TaskOutcome.Success).2.trigger_step_internal "t").2.trigger_step_internal
    "e").2

/-- Counterexample to claim C4 as stated: `schedC4` is reachable, yet task
`t` is `Running` while its direct dependency `d` is `Pending` in the same
run. -/
theorem C4_counterexample :
    Reachable cfgC4 schedC4 ∧
    getTask schedC4.tasks "t" =
      some ⟨"t", ["d"], some RunState.Running, some 1, none⟩ ∧
    rsOf schedC4.tasks "d" = some RunState.Pending :=
  ⟨Reachable.trigger "e" (Reachable.trigger "t"
    (Reachable.completion "t" TaskOutcome.Success
      (Reachable.completion "d" TaskOutcome.Success
        (Reachable.completion "e" TaskOutcome.Success
          (Reachable.trigger "e" Reachable.init))))),
   by decide, by decide⟩

/-! ### Run finalisation: idle states and `run_just_finished` -/

theorem finish_tail (s2 : Scheduler) (rid : Nat) (h2 : s2.current_run_id = some rid) :
    ((s2.maybe_finish_run).1 = true ↔
      all_tasks_terminal (s2.maybe_finish_run).2.tasks = true) ∧
    ((s2.maybe_finish_run).2.current_run_id = none ↔
      all_tasks_terminal (s2.maybe_finish_run).2.tasks = true) := by
  obtain ⟨hf1, hf2⟩ := maybe_finish_run_active s2 rid h2
  rw [maybe_finish_run_tasks]
  exact ⟨hf1, hf2⟩

theorem trigger_marked_crid (s : Scheduler) (t : TaskName) :
    (s.trigger_marked t).current_run_id = (s.trigger_pre).current_run_id := by
  unfold Scheduler.trigger_marked
  by_cases hk : (getTask (s.trigger_pre).tasks t).isSome = true
  · rw [if_pos hk]
  · rw [if_neg hk]

theorem trigger_pre_crid_isSome (s : Scheduler) :
    (s.trigger_pre).current_run_id.isSome = true := by
  unfold Scheduler.trigger_pre
  by_cases hidle : s.current_run_id.isNone = true
  · rw [if_pos hidle]
    rfl
  · rw [if_neg hidle]
    cases h : s.current_run_id with
    | none => rw [h] at hidle; exact absurd rfl hidle
    | some r => rfl

/-- Every `handle_trigger` call ends in `maybe_finish_run` on an active run
(the run is started implicitly when idle), so it finishes the run, and
clears `current_run_id`, exactly when the final task map is terminal. -/
theorem trigger_finish_iff (s : Scheduler) (t : TaskName) :
    ((s.trigger_step_internal t).1.run_just_finished = true ↔
      all_tasks_terminal (s.trigger_step_internal t).2.tasks = true) ∧
    ((s.trigger_step_internal t).2.current_run_id = none ↔
      all_tasks_terminal (s.trigger_step_internal t).2.tasks = true) := by
  obtain ⟨rid2, hrid2⟩ : ∃ r2, (s.trigger_marked t).current_run_id = some r2 := by
    have h1 := trigger_pre_crid_isSome s
    have h2 := trigger_marked_crid s t
    cases hc : (s.trigger_pre).current_run_id with
    | none => rw [hc] at h1; exact absurd h1 (by simp)
    | some r2 => exact ⟨r2, by rw [h2, hc]⟩
  unfold Scheduler.trigger_step_internal
  exact finish_tail _ rid2 hrid2

theorem progress_finish_iff (s : Scheduler) (t : TaskName) (rid : Nat)
    (info : TaskInfo) (hrid : s.current_run_id = some rid)
    (hinfo : getTask s.tasks t = some info) :
    ((s.progress_step_internal t).1.run_just_finished = true ↔
      all_tasks_terminal (s.progress_step_internal t).2.tasks = true) ∧
    ((s.progress_step_internal t).2.current_run_id = none ↔
      all_tasks_terminal (s.progress_step_internal t).2.tasks = true) := by
  unfold Scheduler.progress_step_internal
  rw [hrid]
  simp only [hinfo]
  exact finish_tail _ rid rfl

theorem completion_finish_iff (s : Scheduler) (t : TaskName)
    (outcome : TaskOutcome) (rid : Nat) (hrid : s.current_run_id = some rid) :
    ((s.completion_step_internal t outcome).1.run_just_finished = true ↔
      all_tasks_terminal (s.completion_step_internal t outcome).2.tasks = true) ∧
    ((s.completion_step_internal t outcome).2.current_run_id = none ↔
      all_tasks_terminal (s.completion_step_internal t outcome).2.tasks = true) := by
  unfold Scheduler.completion_step_internal
  rw [hrid]
  cases hinfo : getTask s.tasks t with
  | none => exact finish_tail s rid hrid
  | some info =>
    cases outcome with
    | Success => exact finish_tail _ rid rfl
    | Failed code => exact finish_tail _ rid rfl

theorem idle_terminal_reachable {cfg : ConfigFile} {s : Scheduler}
    (h : Reachable cfg s) :
    s.current_run_id = none → all_tasks_terminal s.tasks = true := by
  induction h with
  | init =>
    intro _
    unfold all_tasks_terminal
    rw [Bool.not_eq_true', List.any_eq_false]
    intro kv hkv
    simp only [Scheduler.from_config, List.mem_map] at hkv
    obtain ⟨kv0, _, heq⟩ := hkv
    rw [← heq]
    simp
  | start _ _ =>
    intro hidle
    exact absurd hidle (by simp [Scheduler.start_new_run])
  | trigger t _ _ =>
    intro hidle
    exact (trigger_finish_iff _ t).2.mp hidle
  | @progress s1 t hpre ih =>
    intro hidle
    cases hrid : s1.current_run_id with
    | none =>
      have hpost : (s1.progress_step_internal t).2 = s1 := by
        unfold Scheduler.progress_step_internal
        rw [hrid]
      rw [hpost]
      exact ih hrid
    | some rid =>
      cases hinfo : getTask s1.tasks t with
      | none =>
        have hpost : (s1.progress_step_internal t).2 = s1 := by
          unfold Scheduler.progress_step_internal
          rw [hrid]
          simp only [hinfo]
        rw [hpost] at hidle
        rw [hrid] at hidle
        exact absurd hidle (by simp)
      | some info =>
        exact (progress_finish_iff s1 t rid info hrid hinfo).2.mp hidle
  | @completion s1 t outcome hpre ih =>
    intro hidle
    cases hrid : s1.current_run_id with
    | none =>
      have hpost : (s1.completion_step_internal t outcome).2 = s1 := by
        unfold Scheduler.completion_step_internal
        rw [hrid]
      rw [hpost]
      exact ih hrid
    | some rid =>
      exact (completion_finish_iff s1 t outcome rid hrid).2.mp hidle

/-- Claim C5, amended: in every reachable scheduler state, if the scheduler
is idle (`current_run_id` cleared) then every task's per-run state is
Absent, `DoneSuccess`, or `DoneFailed`; and each of `handle_trigger` (for
any task), `handle_progress` (active run, known task), and
`handle_completion` (active run) clears `current_run_id` and reports
`run_just_finished` exactly when, after its state updates, no task is
`Pending` or `Running`.  The converse of the first part — terminal implies
idle, as the original "iff" states — is false: `start_new_run` produces an
active run in which every task is still Absent (see the counterexample). -/
theorem C5_idle_terminal (cfg : ConfigFile) (s : Scheduler)
    (h : Reachable cfg s) :
    (s.current_run_id = none → all_tasks_terminal s.tasks = true) ∧
    (∀ t, ((s.trigger_step_internal t).1.run_just_finished = true ↔
        all_tasks_terminal (s.trigger_step_internal t).2.tasks = true) ∧
      ((s.trigger_step_internal t).2.current_run_id = none ↔
        all_tasks_terminal (s.trigger_step_internal t).2.tasks = true)) ∧
    (∀ t rid info, s.current_run_id = some rid → getTask s.tasks t = some info →
      ((s.progress_step_internal t).1.run_just_finished = true ↔
        all_tasks_terminal (s.progress_step_internal t).2.tasks = true) ∧
      ((s.progress_step_internal t).2.current_run_id = none ↔
        all_tasks_terminal (s.progress_step_internal t).2.tasks = true)) ∧
    (∀ t outcome rid, s.current_run_id = some rid →
      ((s.completion_step_internal t outcome).1.run_just_finished = true ↔
        all_tasks_terminal (s.completion_step_internal t outcome).2.tasks = true) ∧
      ((s.completion_step_internal t outcome).2.current_run_id = none ↔
        all_tasks_terminal (s.completion_step_internal t outcome).2.tasks = true)) :=
  ⟨idle_terminal_reachable h,
   fun t => trigger_finish_iff s t,
   fun t rid info hrid hinfo => progress_finish_iff s t rid info hrid hinfo,
   fun t outcome rid hrid => completion_finish_iff s t outcome rid hrid⟩

/-- A one-task configuration for exercising claim C5. -/
def cfgC5 : ConfigFile := ⟨[("a", ⟨[]⟩)]⟩

/-- The state right after `start_new_run` from the loader output. -/
def schedC5 : Scheduler := (Scheduler.from_config cfgC5).start_new_run

/-- Counterexample to claim C5's "iff" as stated: right after
`start_new_run` every task is terminal (Absent), yet the scheduler is not
idle. -/
theorem C5_counterexample :
    Reachable cfgC5 schedC5 ∧ all_tasks_terminal schedC5.tasks = true ∧
    schedC5.current_run_id ≠ none :=
  ⟨Reachable.start Reachable.init, by decide, by decide⟩

/-- Witness for the amended claim C5 at the loader output: idle, and indeed
all-terminal; the trigger characterization instantiated at task `a`. -/
theorem C5_idle_terminal_witness :
    (Reachable cfgC5 (Scheduler.from_config cfgC5) ∧
      (Scheduler.from_config cfgC5).current_run_id = none) ∧
    (all_tasks_terminal (Scheduler.from_config cfgC5).tasks = true ∧
      ((((Scheduler.from_config cfgC5).trigger_step_internal
          "a").1.run_just_finished = true) ↔
        all_tasks_terminal
          ((Scheduler.from_config cfgC5).trigger_step_internal "a").2.tasks = true)) :=
  ⟨⟨Reachable.init, by decide⟩,
   (C5_idle_terminal cfgC5 (Scheduler.from_config cfgC5) Reachable.init).1 (by decide),
   ((C5_idle_terminal cfgC5 (Scheduler.from_config cfgC5) Reachable.init).2.1 "a").1⟩

/-! ### The trigger queue (`engine/queue.rs`) -/

/-- `enum TriggerWhileRunningBehaviour`. -/
inductive TriggerWhileRunningBehaviour
  | Queue
  | Cancel
deriving DecidableEq, Repr

/-- `HashSet::insert` on a set modelled as a duplicate-free list (insertion
order kept; only membership matters to the claims). -/
def hsInsert (s : List TaskName) (x : TaskName) : List TaskName :=
  if x ∈ s then s else s ++ [x]

/-- `self.runs.back_mut()` followed by a mutation of the last batch. -/
def modifyLast (f : List TaskName → List TaskName) :
    List (List TaskName) → List (List TaskName)
  | [] => []
  | [b] => [f b]
  | b :: rest => b :: modifyLast f rest

/-- The queue-mode merge of `record_trigger`: into the last batch when one
exists, else a fresh batch. -/
def mergeRuns (runs : List (List TaskName)) (t : TaskName) : List (List TaskName) :=
  match runs with
  | [] => [[t]]
  | _ :: _ => modifyLast (fun b => hsInsert b t) runs

/-- The `while self.runs.len() > self.max_runs { self.runs.pop_front(); }`
loop, with explicit fuel (the loop removes one element per iteration, so
`runs.length` fuel always suffices). -/
def dropOldestLoop (fuel maxr : Nat) (runs : List (List TaskName)) :
    List (List TaskName) :=
  match fuel with
  | 0 => runs
  | fuel + 1 =>
    if maxr < runs.length then dropOldestLoop fuel maxr (runs.drop 1) else runs

/-- `struct TriggerQueue`: behaviour, clamped batch bound, queued batches. -/
structure TriggerQueue where
  behaviour : TriggerWhileRunningBehaviour
  max_runs : Nat
  runs : List (List TaskName)
deriving DecidableEq, Repr

/-- `TriggerQueue::new`: `max_runs` is clamped to at least 1. -/
def TriggerQueue.new (behaviour : TriggerWhileRunningBehaviour)
    (max_runs : Nat) : TriggerQueue :=
  ⟨behaviour, Nat.max max_runs 1, []⟩

/-- `TriggerQueue::record_trigger`: queue mode merges into the last batch
(creating the first batch when empty) and then drops oldest batches while
over `max_runs`; cancel mode resets the queue to a single batch holding the
task. -/
def TriggerQueue.record_trigger (q : TriggerQueue) (task : TaskName) :
    TriggerQueue :=
  match q.behaviour with
  | TriggerWhileRunningBehaviour.Queue =>
    let runs1 := mergeRuns q.runs task
    { q with runs := dropOldestLoop runs1.length q.max_runs runs1 }
  | TriggerWhileRunningBehaviour.Cancel =>
    { q with runs := [[task]] }

/-- `TriggerQueue::drain_pending`: merge every queued batch (front to back)
into one set of task names, leaving the queue empty. -/
def TriggerQueue.drain_pending (q : TriggerQueue) :
    List TaskName × TriggerQueue :=
  (q.runs.foldl (fun acc batch => batch.foldl hsInsert acc) [],
   { q with runs := [] })

theorem record_trigger_behaviour (q : TriggerQueue) (t : TaskName) :
    (q.record_trigger t).behaviour = q.behaviour := by
  unfold TriggerQueue.record_trigger
  cases hb : q.behaviour with
  | Queue => rfl
  | Cancel => rfl

theorem record_trigger_max (q : TriggerQueue) (t : TaskName) :
    (q.record_trigger t).max_runs = q.max_runs := by
  unfold TriggerQueue.record_trigger
  cases hb : q.behaviour with
  | Queue => rfl
  | Cancel => rfl

theorem record_trigger_cancel (q : TriggerQueue) (t : TaskName)
    (hb : q.behaviour = TriggerWhileRunningBehaviour.Cancel) :
    (q.record_trigger t).runs = [[t]] := by
  unfold TriggerQueue.record_trigger
  rw [hb]

theorem record_fold_cancel : ∀ (rest : List TaskName) (q : TriggerQueue),
    q.behaviour = TriggerWhileRunningBehaviour.Cancel → ∀ n,
    (List.foldl TriggerQueue.record_trigger q (n :: rest)).behaviour =
      TriggerWhileRunningBehaviour.Cancel ∧
    (List.foldl TriggerQueue.record_trigger q (n :: rest)).runs =
      [[(n :: rest).getLast (List.cons_ne_nil n rest)]] := by
  intro rest
  induction rest with
  | nil =>
    intro q hb n
    constructor
    · rw [List.foldl_cons, List.foldl_nil, record_trigger_behaviour, hb]
    · rw [List.foldl_cons, List.foldl_nil, record_trigger_cancel q n hb]
      rfl
  | cons m rest ih =>
    intro q hb n
    rw [List.foldl_cons]
    have h2 := ih (q.record_trigger n) (by rw [record_trigger_behaviour, hb]) m
    refine ⟨h2.1, ?_⟩
    rw [h2.2, List.getLast_cons (List.cons_ne_nil m rest)]

/-- Claim C6: in Cancel mode, after any non-empty sequence of
`record_trigger` calls whose last call names `c`, `drain_pending` returns
exactly the singleton `[c]` and leaves the queue empty. -/
theorem C6_cancel_keeps_last (q0 : TriggerQueue)
    (hb : q0.behaviour = TriggerWhileRunningBehaviour.Cancel)
    (names : List TaskName) (hne : names ≠ []) :
    ((names.foldl TriggerQueue.record_trigger q0).drain_pending).1 =
      [names.getLast hne] ∧
    ((names.foldl TriggerQueue.record_trigger q0).drain_pending).2.runs = [] := by
  cases names with
  | nil => exact absurd rfl hne
  | cons n rest =>
    obtain ⟨hbf, hruns⟩ := record_fold_cancel rest q0 hb n
    unfold TriggerQueue.drain_pending
    constructor
    · rw [hruns]
      simp [hsInsert]
    · rfl

/-- Witness for claim C6 with the spec's own example sequence `a, b, c`. -/
theorem C6_cancel_keeps_last_witness :
    ((TriggerQueue.new TriggerWhileRunningBehaviour.Cancel 1).behaviour =
        TriggerWhileRunningBehaviour.Cancel ∧
      (["a", "b", "c"] : List TaskName) ≠ []) ∧
    (((["a", "b", "c"] : List TaskName).foldl TriggerQueue.record_trigger
        (TriggerQueue.new TriggerWhileRunningBehaviour.Cancel 1)).drain_pending).1 =
      [(["a", "b", "c"] : List TaskName).getLast (by decide)] ∧
    (((["a", "b", "c"] : List TaskName).foldl TriggerQueue.record_trigger
        (TriggerQueue.new TriggerWhileRunningBehaviour.Cancel 1)).drain_pending).2.runs =
      [] :=
  ⟨⟨rfl, by decide⟩,
   (C6_cancel_keeps_last (TriggerQueue.new TriggerWhileRunningBehaviour.Cancel 1) rfl
     ["a", "b", "c"] (by decide)).1,
   (C6_cancel_keeps_last (TriggerQueue.new TriggerWhileRunningBehaviour.Cancel 1) rfl
     ["a", "b", "c"] (by decide)).2⟩

theorem modifyLast_length (f : List TaskName → List TaskName) :
    ∀ l : List (List TaskName), (modifyLast f l).length = l.length := by
  intro l
  induction l with
  | nil => rfl
  | cons b rest ih =>
    cases rest with
    | nil => rfl
    | cons c rest2 =>
      show (b :: modifyLast f (c :: rest2)).length = (b :: c :: rest2).length
      rw [List.length_cons, List.length_cons, ih]

theorem dropOldestLoop_noop (maxr : Nat) (runs : List (List TaskName))
    (h : runs.length ≤ maxr) : ∀ fuel, dropOldestLoop fuel maxr runs = runs := by
  intro fuel
  cases fuel with
  | zero => rfl
  | succ fuel =>
    unfold dropOldestLoop
    rw [if_neg (Nat.not_lt.mpr h)]

theorem mergeRuns_length (runs : List (List TaskName)) (t : TaskName) :
    (mergeRuns runs t).length = Nat.max runs.length 1 := by
  unfold mergeRuns
  cases runs with
  | nil => rfl
  | cons b rest =>
    rw [modifyLast_length]
    rw [List.length_cons]
    exact (Nat.max_eq_left (Nat.succ_le_succ (Nat.zero_le _))).symm

/-- Queue-mode `record_trigger` with at most one batch queued and a positive
bound: the merged batches are kept verbatim (the drop-oldest branch does
nothing) and the count stays at most one. -/
theorem record_trigger_queue (q : TriggerQueue) (t : TaskName)
    (hb : q.behaviour = TriggerWhileRunningBehaviour.Queue)
    (hmax : 1 ≤ q.max_runs) (hlen : q.runs.length ≤ 1) :
    (q.record_trigger t).runs = mergeRuns q.runs t ∧
    (q.record_trigger t).runs.length ≤ 1 := by
  have hlen1 : (mergeRuns q.runs t).length ≤ 1 := by
    rw [mergeRuns_length]
    exact Nat.max_le.mpr ⟨hlen, Nat.le_refl 1⟩
  have hle : (mergeRuns q.runs t).length ≤ q.max_runs := Nat.le_trans hlen1 hmax
  have hruns : (q.record_trigger t).runs = mergeRuns q.runs t := by
    unfold TriggerQueue.record_trigger
    rw [hb]
    show dropOldestLoop (mergeRuns q.runs t).length q.max_runs (mergeRuns q.runs t) =
      mergeRuns q.runs t
    exact dropOldestLoop_noop q.max_runs (mergeRuns q.runs t) hle _
  exact ⟨hruns, by rw [hruns]; exact hlen1⟩

/-- The queue states reachable in Queue mode from an empty queue by
`record_trigger` and `drain_pending`. -/
inductive QueueReachable (m : Nat) : TriggerQueue → Prop
  | init : QueueReachable m
      (TriggerQueue.new TriggerWhileRunningBehaviour.Queue m)
  | record {q : TriggerQueue} (t : TaskName) : QueueReachable m q →
      QueueReachable m (q.record_trigger t)
  | drain {q : TriggerQueue} : QueueReachable m q →
      QueueReachable m (q.drain_pending).2

/-- The C10 state invariant. -/
def QInv (q : TriggerQueue) : Prop :=
  q.behaviour = TriggerWhileRunningBehaviour.Queue ∧ 1 ≤ q.max_runs ∧
    q.runs.length ≤ 1

theorem qInv_reachable {m : Nat} {q : TriggerQueue} (h : QueueReachable m q) :
    QInv q := by
  induction h with
  | init =>
    exact ⟨rfl, Nat.le_max_right m 1, Nat.zero_le 1⟩
  | record t _ ih =>
    obtain ⟨hb, hmax, hlen⟩ := ih
    refine ⟨by rw [record_trigger_behaviour]; exact hb,
      by rw [record_trigger_max]; exact hmax, ?_⟩
    exact (record_trigger_queue _ t hb hmax hlen).2
  | drain _ ih =>
    obtain ⟨hb, hmax, _⟩ := ih
    exact ⟨hb, hmax, Nat.zero_le 1⟩

/-- Claim C10: in Queue mode (any configured `max_runs`, clamped to at least
1), every reachable queue state holds at most one batch, and
`record_trigger` keeps the merged batches verbatim — merging into the last
batch, or creating the first one — so the drop-oldest overflow branch never
removes anything. -/
theorem C10_queue_single_batch (m : Nat) (q : TriggerQueue)
    (h : QueueReachable m q) :
    q.runs.length ≤ 1 ∧
    ∀ t, (q.record_trigger t).runs = mergeRuns q.runs t := by
  obtain ⟨hb, hmax, hlen⟩ := qInv_reachable h
  exact ⟨hlen, fun t => (record_trigger_queue q t hb hmax hlen).1⟩

/-- A concrete reachable Queue-mode state: two triggers, a drain, another
trigger. -/
def qW10 : TriggerQueue :=
  ((((TriggerQueue.new TriggerWhileRunningBehaviour.Queue 2).record_trigger
    "a").record_trigger "b").drain_pending).2.record_trigger "c"

/-- Witness for claim C10 at `qW10`. -/
theorem C10_queue_single_batch_witness :
    QueueReachable 2 qW10 ∧ qW10.runs.length ≤ 1 ∧
      (qW10.record_trigger "d").runs = mergeRuns qW10.runs "d" :=
  ⟨QueueReachable.record "c" (QueueReachable.drain
      (QueueReachable.record "b" (QueueReachable.record "a" QueueReachable.init))),
   (C10_queue_single_batch 2 qW10 (QueueReachable.record "c" (QueueReachable.drain
      (QueueReachable.record "b"
        (QueueReachable.record "a" QueueReachable.init))))).1,
   (C10_queue_single_batch 2 qW10 (QueueReachable.record "c" (QueueReachable.drain
      (QueueReachable.record "b"
        (QueueReachable.record "a" QueueReachable.init))))).2 "d"⟩

/-! ### File hashing (`watch/hash.rs`)

The blake3 hasher is idealised as an injective digest: a file's digest
stands for its content, and the aggregate digest is the list of fixed-width
per-file digests in the order they are fed to the hasher.  This is faithful
up to hash collisions: a real blake3 stream of fixed-width blocks
determines that block list, and the per-file hex digests all have width 64. -/

/-- A watched path, modelled as its character sequence (`PathBuf`). -/
abbrev Path := List Char

abbrev FileContent := String

/-- The file system visible to the hasher: path to content, `none` when
`path.is_file()` is false. -/
abbrev FileSystem := List (Path × FileContent)

def getFile (fs : FileSystem) (p : Path) : Option FileContent :=
  (fs.find? fun kv => kv.1 = p).map Prod.snd

/-- `compute_file_hash`, idealised: the digest of a file's content stream,
standing injectively for the content. -/
def fileHash (c : FileContent) : String := c

/-- `compute_aggregate_hash`: feed each (fixed-width) hash to the hasher;
the idealised digest is the fed block list. -/
def compute_aggregate_hash (hashes : List String) : List String := hashes

/-- `PathBuf` ordering, modelled as lexicographic on characters. -/
def pathLe : Path → Path → Bool
  | [], _ => true
  | _ :: _, [] => false
  | a :: as, b :: bs => if a = b then pathLe as bs else decide (a < b)

instance : DecidableRel (fun a b : Path => pathLe a b = true) :=
  fun _ _ => inferInstance

/-- `paths_vec.sort()`. -/
def sortPaths (paths : List Path) : List Path :=
  List.insertionSort (fun a b => pathLe a b = true) paths

/-- `compute_hash_for_paths`: sort the paths, hash each existing file, feed
the file hashes to the aggregate hasher in that order. -/
def compute_hash_for_paths (fs : FileSystem) (paths : List Path) : List String :=
  compute_aggregate_hash
    ((sortPaths paths).filterMap fun p => (getFile fs p).map fileHash)

theorem pathLe_cons_cons (x y : Char) (as bs : Path) :
    pathLe (x :: as) (y :: bs) =
      if x = y then pathLe as bs else decide (x < y) := rfl

theorem pathLe_total : ∀ a b : Path, pathLe a b = true ∨ pathLe b a = true := by
  intro a
  induction a with
  | nil => intro b; exact Or.inl rfl
  | cons x as ih =>
    intro b
    cases b with
    | nil => exact Or.inr rfl
    | cons y bs =>
      rw [pathLe_cons_cons, pathLe_cons_cons]
      by_cases hxy : x = y
      · rcases ih bs with h | h
        · left
          rw [if_pos hxy]
          exact h
        · right
          rw [if_pos hxy.symm]
          exact h
      · rcases lt_or_gt_of_ne hxy with h | h
        · left
          rw [if_neg hxy]
          exact decide_eq_true h
        · right
          rw [if_neg fun hc => hxy hc.symm]
          exact decide_eq_true h

theorem pathLe_trans : ∀ a b c : Path, pathLe a b = true → pathLe b c = true →
    pathLe a c = true := by
  intro a
  induction a with
  | nil => intro b c _ _; rfl
  | cons x as ih =>
    intro b c hab hbc
    cases b with
    | nil => exact absurd hab (by rw [show pathLe (x :: as) [] = false from rfl]; simp)
    | cons y bs =>
      cases c with
      | nil => exact absurd hbc (by rw [show pathLe (y :: bs) [] = false from rfl]; simp)
      | cons z cs =>
        rw [pathLe_cons_cons] at hab hbc ⊢
        by_cases hxy : x = y
        · rw [if_pos hxy] at hab
          by_cases hyz : y = z
          · rw [if_pos hyz] at hbc
            rw [if_pos (hxy.trans hyz)]
            exact ih bs cs hab hbc
          · rw [if_neg hyz] at hbc
            have hlt : y < z := of_decide_eq_true hbc
            rw [if_neg fun hc => hyz (hxy.symm.trans hc)]
            exact decide_eq_true (hxy ▸ hlt)
        · rw [if_neg hxy] at hab
          have hxy2 : x < y := of_decide_eq_true hab
          by_cases hyz : y = z
          · have hxz : x < z := hyz ▸ hxy2
            rw [if_neg (ne_of_lt hxz)]
            exact decide_eq_true hxz
          · rw [if_neg hyz] at hbc
            have hxz : x < z := lt_trans hxy2 (of_decide_eq_true hbc)
            rw [if_neg (ne_of_lt hxz)]
            exact decide_eq_true hxz

theorem pathLe_antisymm : ∀ a b : Path, pathLe a b = true → pathLe b a = true →
    a = b := by
  intro a
  induction a with
  | nil =>
    intro b hab hba
    cases b with
    | nil => rfl
    | cons y bs =>
      exact absurd hba (by rw [show pathLe (y :: bs) [] = false from rfl]; simp)
  | cons x as ih =>
    intro b hab hba
    cases b with
    | nil => exact absurd hab (by rw [show pathLe (x :: as) [] = false from rfl]; simp)
    | cons y bs =>
      rw [pathLe_cons_cons] at hab hba
      by_cases hxy : x = y
      · rw [if_pos hxy] at hab
        rw [if_pos hxy.symm] at hba
        rw [hxy, ih bs hab hba]
      · rw [if_neg hxy] at hab
        rw [if_neg fun hc => hxy hc.symm] at hba
        exact absurd (of_decide_eq_true hab) (lt_asymm (of_decide_eq_true hba))

instance : IsTotal Path (fun a b => pathLe a b = true) := ⟨pathLe_total⟩

instance : IsTrans Path (fun a b => pathLe a b = true) := ⟨pathLe_trans⟩

instance : IsAntisymm Path (fun a b => pathLe a b = true) := ⟨pathLe_antisymm⟩

theorem sortPaths_eq_of_perm {p1 p2 : List Path} (h : p1.Perm p2) :
    sortPaths p1 = sortPaths p2 :=
  List.eq_of_perm_of_sorted
    ((List.perm_insertionSort _ p1).trans (h.trans (List.perm_insertionSort _ p2).symm))
    (List.sorted_insertionSort _ p1) (List.sorted_insertionSort _ p2)

theorem mem_digest_iff (fs : FileSystem) (paths : List Path) (c : String) :
    c ∈ compute_hash_for_paths fs paths ↔ ∃ p ∈ paths, getFile fs p = some c := by
  unfold compute_hash_for_paths compute_aggregate_hash
  rw [List.mem_filterMap]
  constructor
  · rintro ⟨p, hp, hc⟩
    refine ⟨p, (List.perm_insertionSort _ paths).subset hp, ?_⟩
    cases hg : getFile fs p with
    | none => rw [hg] at hc; exact absurd hc (by simp)
    | some c0 =>
      rw [hg] at hc
      simp only [Option.map_some'] at hc
      exact hc
  · rintro ⟨p, hp, hc⟩
    exact ⟨p, (List.perm_insertionSort _ paths).symm.subset hp, by rw [hc]; rfl⟩

/-- Claim C7, amended: the aggregate hash is order-independent — permuting
the input path list leaves the digest unchanged — and equal digests imply
equal sets of (existing-) file contents.  The claimed converse, "equal sets
of file contents imply equal digests", is false: the digest is the per-file
hash sequence in sorted-path order, so two inputs whose existing files
repeat the same content a different number of times have equal content sets
but different digests (see the counterexample). -/
theorem C7_aggregate_hash (fs : FileSystem) (p1 p2 : List Path) :
    (p1.Perm p2 → compute_hash_for_paths fs p1 = compute_hash_for_paths fs p2) ∧
    (compute_hash_for_paths fs p1 = compute_hash_for_paths fs p2 →
      ∀ c, (∃ p ∈ p1, getFile fs p = some c) ↔ ∃ p ∈ p2, getFile fs p = some c) := by
  constructor
  · intro hperm
    unfold compute_hash_for_paths
    rw [sortPaths_eq_of_perm hperm]
  · intro heq c
    rw [← mem_digest_iff, ← mem_digest_iff, heq]

/-- A two-file file system for exercising claim C7. -/
def fsW7 : FileSystem := [(['a'], "x"), (['b'], "y")]

/-- Witness for the amended claim C7: a transposed path list yields the same
digest, and the content-set direction instantiated at content `x`. -/
theorem C7_aggregate_hash_witness :
    ([['b'], ['a']] : List Path).Perm [['a'], ['b']] ∧
    compute_hash_for_paths fsW7 [['b'], ['a']] =
      compute_hash_for_paths fsW7 [['a'], ['b']] ∧
    ((∃ p ∈ ([['b'], ['a']] : List Path), getFile fsW7 p = some "x") ↔
      ∃ p ∈ ([['a'], ['b']] : List Path), getFile fsW7 p = some "x") :=
  ⟨by decide,
   (C7_aggregate_hash fsW7 [['b'], ['a']] [['a'], ['b']]).1 (by decide),
   (C7_aggregate_hash fsW7 [['b'], ['a']] [['a'], ['b']]).2
     ((C7_aggregate_hash fsW7 [['b'], ['a']] [['a'], ['b']]).1 (by decide)) "x"⟩

/-- Two files with the same content. -/
def fsC7 : FileSystem := [(['a'], "x"), (['b'], "x")]

/-- Counterexample to claim C7's "iff" as stated: the path lists `[a]` and
`[a, b]` over a file system where both files hold content `x` have equal
sets of file contents, yet different aggregate digests (the same content is
fed once versus twice). -/
theorem C7_counterexample :
    (∀ c, (∃ p ∈ ([['a']] : List Path), getFile fsC7 p = some c) ↔
      ∃ p ∈ ([['a'], ['b']] : List Path), getFile fsC7 p = some c) ∧
    compute_hash_for_paths fsC7 [['a']] ≠
      compute_hash_for_paths fsC7 [['a'], ['b']] := by
  constructor
  · intro c
    constructor
    · rintro ⟨p, hp, hc⟩
      have hpa : p = ['a'] := by simpa using hp
      exact ⟨['a'], by simp, by rw [← hpa]; exact hc⟩
    · rintro ⟨p, hp, hc⟩
      have hpe : p = ['a'] ∨ p = ['b'] := by simpa using hp
      rcases hpe with hpe | hpe
      · exact ⟨['a'], by simp, by rw [← hpe]; exact hc⟩
      · refine ⟨['a'], by simp, ?_⟩
        rw [hpe] at hc
        rw [show getFile fsC7 ['b'] = some "x" from rfl] at hc
        rw [show getFile fsC7 ['a'] = some "x" from rfl]
        exact hc
  · decide

/-! ### `parse_duration` (`exec/long_lived.rs`) -/

/-- Unicode `White_Space`, the class `str::trim` and `char::is_whitespace`
use. -/
def isRustWhitespace (c : Char) : Bool :=
  decide (c.toNat ∈ ([0x09, 0x0A, 0x0B, 0x0C, 0x0D, 0x20, 0x85, 0xA0, 0x1680,
    0x2000, 0x2001, 0x2002, 0x2003, 0x2004, 0x2005, 0x2006, 0x2007, 0x2008,
    0x2009, 0x200A, 0x2028, 0x2029, 0x202F, 0x205F, 0x3000] : List Nat))

/-- `str::trim`: strip leading and trailing whitespace. -/
def trimChars (cs : List Char) : List Char :=
  ((cs.dropWhile isRustWhitespace).reverse.dropWhile isRustWhitespace).reverse

/-- The numeric value of an ASCII digit string. -/
def digitsVal (cs : List Char) : Nat :=
  cs.foldl (fun acc c => acc * 10 + (c.toNat - 48)) 0

/-- `str::parse::<u64>` on the digit prefix: errors on an empty string, a
non-digit, or a value exceeding `u64::MAX`. -/
def parseU64 (cs : List Char) : Option Nat :=
  if cs = [] then none
  else if cs.all Char.isDigit = true then
    if digitsVal cs < 18446744073709551616 then some (digitsVal cs) else none
  else none

/-- `std::time::Duration` (seconds and nanoseconds). -/
structure Duration where
  secs : Nat
  nanos : Nat
deriving DecidableEq, Repr

def Duration.from_millis (ms : Nat) : Duration := ⟨ms / 1000, ms % 1000 * 1000000⟩

def Duration.from_secs (s : Nat) : Duration := ⟨s, 0⟩

/-- `parse_duration`: trim; reject the empty string; split at the first
non-ASCII-digit character (`position` + `split_at`, i.e. `takeWhile` /
`dropWhile`; no non-digit at all means a missing unit suffix); parse the
digit prefix as `u64`; trim and lowercase the suffix; map `ms`/`s`/`m`/`h`
to the duration (`m` and `h` multiply with `u64` release-mode wrap-around,
hence the `% 2^64`).  `to_lowercase` is modelled as ASCII lowercasing: no
non-ASCII character maps to `m`, `s`, or `h` under Unicode lowercasing, so
the unit match is unaffected. -/
def parse_duration (s : String) : Option Duration :=
  if trimChars s.data = [] then none
  else if (trimChars s.data).dropWhile Char.isDigit = [] then none
  else
    match parseU64 ((trimChars s.data).takeWhile Char.isDigit) with
    | none => none
    | some value =>
      if (trimChars ((trimChars s.data).dropWhile Char.isDigit)).map Char.toLower =
          ['m', 's'] then
        some (Duration.from_millis value)
      else if (trimChars ((trimChars s.data).dropWhile Char.isDigit)).map
          Char.toLower = ['s'] then
        some (Duration.from_secs value)
      else if (trimChars ((trimChars s.data).dropWhile Char.isDigit)).map
          Char.toLower = ['m'] then
        some (Duration.from_secs (value * 60 % 18446744073709551616))
      else if (trimChars ((trimChars s.data).dropWhile Char.isDigit)).map
          Char.toLower = ['h'] then
        some (Duration.from_secs (value * 60 * 60 % 18446744073709551616))
      else none

/-- `setup_long_lived_handlers`: the `TaskProgressed` timer is armed exactly
when `progress_on_time` is present and parses. -/
def timer_armed (progress_on_time : Option String) : Bool :=
  match progress_on_time with
  | none => false
  | some s =>
    match parse_duration s with
    | some _ => true
    | none => false

/-- The claim's grammar `<positive_integer><unit>`, worded from the
specification (for comparison with `parse_duration`): a non-empty all-digit
prefix of positive value followed immediately by one of the four lowercase
units, with nothing else. -/
def claimGrammar (s : String) : Bool :=
  decide (s.data.takeWhile Char.isDigit ≠ []) &&
    decide (0 < digitsVal (s.data.takeWhile Char.isDigit)) &&
    (decide (s.data.dropWhile Char.isDigit = ['m', 's']) ||
      decide (s.data.dropWhile Char.isDigit = ['s']) ||
      decide (s.data.dropWhile Char.isDigit = ['m']) ||
      decide (s.data.dropWhile Char.isDigit = ['h']))

/-- The duration the specification's grammar associates with a value and a
unit. -/
def unitDuration (v : Nat) (unit : List Char) : Duration :=
  if unit = ['m', 's'] then Duration.from_millis v
  else if unit = ['s'] then Duration.from_secs v
  else if unit = ['m'] then Duration.from_secs (v * 60 % 18446744073709551616)
  else Duration.from_secs (v * 60 * 60 % 18446744073709551616)

theorem digit_toNat {c : Char} (h : c.isDigit = true) :
    48 ≤ c.toNat ∧ c.toNat ≤ 57 := by
  unfold Char.isDigit at h
  rw [Bool.and_eq_true, decide_eq_true_eq, decide_eq_true_eq] at h
  obtain ⟨h1, h2⟩ := h
  have h1b : (48 : UInt32) ≤ c.val := h1
  rw [UInt32.le_def] at h1b h2
  exact ⟨h1b, h2⟩

theorem not_ws_of_digit {c : Char} (h : c.isDigit = true) :
    isRustWhitespace c = false := by
  obtain ⟨h1, h2⟩ := digit_toNat h
  unfold isRustWhitespace
  rw [decide_eq_false_iff_not]
  intro hmem
  simp only [List.mem_cons, List.not_mem_nil, or_false] at hmem
  omega

theorem dropWhile_eq_self_of_all {p : Char → Bool} (cs : List Char)
    (h : ∀ c ∈ cs, p c = false) : cs.dropWhile p = cs := by
  cases cs with
  | nil => rfl
  | cons a l =>
    rw [List.dropWhile_cons, h a (List.mem_cons_self a l)]
    simp

theorem trimChars_eq_self (cs : List Char)
    (h : ∀ c ∈ cs, isRustWhitespace c = false) : trimChars cs = cs := by
  unfold trimChars
  rw [dropWhile_eq_self_of_all cs h,
    dropWhile_eq_self_of_all cs.reverse (fun c hc => h c (List.mem_reverse.mp hc)),
    List.reverse_reverse]

/-- Claim C8, amended: every string of the grammar
`<positive_integer><unit>` (units `ms`, `s`, `m`, `h`) whose value fits in
`u64` is accepted by `parse_duration` with the corresponding duration, and
an invalid duration arms no `TaskProgressed` timer.  The claimed "exactly"
is false in both directions: the parser also accepts strings outside the
grammar — zero values (`"0s"`, see the counterexample), surrounding
whitespace, and uppercase units — and rejects grammar strings whose value
overflows `u64`. -/
theorem C8_parse_duration_grammar (s : String) (hg : claimGrammar s = true)
    (hv : digitsVal (s.data.takeWhile Char.isDigit) < 18446744073709551616) :
    parse_duration s =
      some (unitDuration (digitsVal (s.data.takeWhile Char.isDigit))
        (s.data.dropWhile Char.isDigit)) ∧
    (∀ s2, parse_duration s2 = none → timer_armed (some s2) = false) := by
  constructor
  case right =>
    intro s2 h
    unfold timer_armed
    show (match parse_duration s2 with | some _ => true | none => false) = false
    rw [h]
  case left =>
    unfold claimGrammar at hg
    simp only [Bool.and_eq_true, Bool.or_eq_true, decide_eq_true_eq] at hg
    obtain ⟨⟨hne, hpos⟩, hunit⟩ := hg
    have hd : ∀ c ∈ s.data.takeWhile Char.isDigit, Char.isDigit c = true :=
      fun c hc => List.mem_takeWhile_imp hc
    have hu_nws : ∀ c ∈ s.data.dropWhile Char.isDigit, isRustWhitespace c = false := by
      intro c hc
      rcases hunit with ((h | h) | h) | h <;>
        rw [h] at hc <;>
        simp only [List.mem_cons, List.not_mem_nil, or_false] at hc
      · rcases hc with hc | hc <;> (subst hc; rfl)
      · subst hc; rfl
      · subst hc; rfl
      · subst hc; rfl
    have hall_nws : ∀ c ∈ s.data, isRustWhitespace c = false := by
      intro c hc
      rw [← List.takeWhile_append_dropWhile Char.isDigit s.data] at hc
      rcases List.mem_append.mp hc with hc | hc
      · exact not_ws_of_digit (hd c hc)
      · exact hu_nws c hc
    have htrim : trimChars s.data = s.data := trimChars_eq_self s.data hall_nws
    have hu_nws2 : ∀ c ∈ s.data.dropWhile Char.isDigit, isRustWhitespace c = false :=
      hu_nws
    have htrimu : trimChars (s.data.dropWhile Char.isDigit) =
        s.data.dropWhile Char.isDigit :=
      trimChars_eq_self _ hu_nws2
    have hsne : ¬(s.data = []) := by
      intro hc
      rw [hc] at hne
      exact hne rfl
    have hune : ¬(s.data.dropWhile Char.isDigit = []) := by
      rcases hunit with ((h | h) | h) | h <;> (rw [h]; simp)
    have hparse : parseU64 (s.data.takeWhile Char.isDigit) =
        some (digitsVal (s.data.takeWhile Char.isDigit)) := by
      unfold parseU64
      rw [if_neg hne, if_pos (List.all_eq_true.mpr hd), if_pos hv]
    unfold parse_duration
    rw [htrim, if_neg hsne, if_neg hune, hparse, htrimu]
    rcases hunit with ((h | h) | h) | h <;> (rw [h]; rfl)

/-- Witness for the amended claim C8 at `250ms`. -/
theorem C8_parse_duration_grammar_witness :
    (claimGrammar "250ms" = true ∧
      digitsVal ("250ms".data.takeWhile Char.isDigit) < 18446744073709551616) ∧
    (parse_duration "250ms" =
      some (unitDuration (digitsVal ("250ms".data.takeWhile Char.isDigit))
        ("250ms".data.dropWhile Char.isDigit)) ∧
    (∀ s2, parse_duration s2 = none → timer_armed (some s2) = false)) :=
  ⟨⟨by decide, by decide⟩, C8_parse_duration_grammar "250ms" (by decide) (by decide)⟩

/-- Counterexample to claim C8 as stated: `"0s"` is not in the grammar
`<positive_integer><unit>` (zero is not positive), yet `parse_duration`
accepts it. -/
theorem C8_counterexample :
    parse_duration "0s" = some (Duration.from_secs 0) ∧
    claimGrammar "0s" = false :=
  ⟨by decide, by decide⟩

end Watchdag
